import Mathlib

/-!
Verification of the Smart-Warehouse dispatch and routing engine.

This file shallowly embeds the routing core of the repository
(`backend/services/optimization_service.py` and the grid model of
`backend/models/warehouse.py`) into Lean and proves or refutes the frozen
claims about it.

Conventions of the embedding:
* Python machine integers are `Int`/`Nat` (Python ints are unbounded).
* Python floats are modelled as exact rationals `ℚ`; the float literals used
  by the source (`0.4`, `0.5`, `0.2`, `0.7`, `0.3`, percentages) decide
  nothing near representation error in any claim below, so exact rational
  arithmetic is a faithful model of the comparisons the code performs.
* Python dicts used as records become structures; dicts used as keyed maps
  (`g_score`, `came_from`) become functions into `Option` updated pointwise,
  which matches dict lookup/overwrite semantics.
* The `heapq` priority queue is modelled as a list with minimum extraction
  under the lexicographic tuple order that Python uses to compare
  `(f, (x, y))` entries; pushes cons onto the list.  `heapq` pops a minimal
  element of the multiset of entries, which is exactly what the model's
  `popMin` does.
* The A* `while` loop of `_find_path` terminates; the embedding runs it on a
  fuel of `5 * rows * cols + 8` iterations, which theorem `astarLoop_spec`
  proves is always sufficient, so the fuel-exhaustion branch (mapped to the
  defensive `except` branch's `[]`) is unreachable.
-/

/- Batteries marks the arithmetic on `Rat` `@[irreducible]`; re-enable
unfolding so that concrete claims about the (exact-rational model of the)
source's float arithmetic can be settled by `decide`. -/
unseal Rat.inv Rat.mul Rat.add Rat.sub Rat.ofScientific

/-- A grid coordinate `(x, y)`, exactly the pairs the Python code keys its
dictionaries with. -/
abbrev Pos := Int × Int

/-- One element of a route list produced by the service: the dicts
`{"x": …, "y": …, "action": …, "item": …, "quantity": …}`.  Steps that do not
carry an `item`/`quantity` key (or carry `None`) are modelled with `none`. -/
structure RouteStep where
  x : Int
  y : Int
  action : String
  item : Option String := none
  quantity : Option Nat := none
deriving DecidableEq, Repr

/-- `WarehouseGrid` (backend/models/warehouse.py): the fields the routing
engine reads.  `grid r c` is the numpy cell value `self.grid[r, c]`
(0 walkable, 1 shelf, 2 entrance, 3 exit); `entrances`/`exits` are the
position dicts `{"x": …, "y": …}` as `(x, y)` pairs. -/
structure WarehouseGrid where
  rows : Nat
  cols : Nat
  grid : Nat → Nat → Nat
  entrances : List Pos := []
  exits : List Pos := []

/-- `WarehouseGrid.is_valid_position` (warehouse.py lines 325-329):
in bounds and the raw cell value equals 0 (walkable). -/
def WarehouseGrid.is_valid_position (g : WarehouseGrid) (x y : Int) : Bool :=
  if 0 ≤ x ∧ x < (g.cols : Int) ∧ 0 ≤ y ∧ y < (g.rows : Int) then
    g.grid y.toNat x.toNat == 0
  else
    false

/-- Shorthand for the walkability of a position (the predicate A* consults). -/
def walkB (g : WarehouseGrid) (p : Pos) : Bool :=
  g.is_valid_position p.1 p.2

/-- `OptimizationService._heuristic`: Manhattan distance. -/
def heuristic (s e : Pos) : Nat :=
  (s.1 - e.1).natAbs + (s.2 - e.2).natAbs

/-- 4-connected adjacency: Manhattan distance one. -/
def adjB (p q : Pos) : Bool :=
  heuristic p q == 1

/-- The neighbour offsets A* expands, in source order
`[(0, 1), (1, 0), (0, -1), (-1, 0)]`. -/
def dirs : List (Int × Int) := [(0, 1), (1, 0), (0, -1), (-1, 0)]

/-- Offset application. -/
def nbr (p : Pos) (d : Int × Int) : Pos := (p.1 + d.1, p.2 + d.2)

/-- `walkList g s l t`: `l` is the list of cells of a 4-connected walk from
`s` (exclusive) to `t` (inclusive); every visited cell after `s` is walkable.
This is the specification-side notion of a path through walkable cells. -/
def walkList (g : WarehouseGrid) : Pos → List Pos → Pos → Bool
  | s, [], t => s == t
  | s, p :: ps, t => adjB s p && walkB g p && walkList g p ps t

/-- `t` is reachable from `s` through 4-connected walkable cells. -/
def Reachable (g : WarehouseGrid) (s t : Pos) : Prop :=
  ∃ l, walkList g s l t = true

/-- `n` is the true shortest-path distance from `s` to `t`: attained by some
walk and no greater than the length of any walk. -/
def IsDist (g : WarehouseGrid) (s t : Pos) (n : Nat) : Prop :=
  (∃ l, walkList g s l t = true ∧ l.length = n) ∧
    ∀ l, walkList g s l t = true → n ≤ l.length

/-! ### The priority queue model -/

/-- Python tuple comparison on heap entries `(f, (x, y))`: `f` first, then
`x`, then `y`.  This is the order `heapq` uses on `_find_path`'s entries. -/
def entryLtB (a b : Nat × Pos) : Bool :=
  a.1 < b.1 ||
    (a.1 == b.1 && (a.2.1 < b.2.1 || (a.2.1 == b.2.1 && a.2.2 < b.2.2)))

/-- Fold picking the earliest minimal entry under the tuple order. -/
def pickMin (m : Nat × Pos) (l : List (Nat × Pos)) : Nat × Pos :=
  l.foldl (fun a b => if entryLtB b a then b else a) m

/-- `heapq.heappop`: remove and return a minimal entry of the multiset. -/
def popMin : List (Nat × Pos) → Option ((Nat × Pos) × List (Nat × Pos))
  | [] => none
  | e :: es =>
    let m := pickMin e es
    some (m, (e :: es).erase m)

/-! ### A* (`OptimizationService._find_path`) -/

/-- The mutable state of the A* loop: the open set (heap), the `came_from`
dict and the `g_score` dict.  (`f_score` is write-only in the source apart
from the value pushed onto the heap, so it needs no field.) -/
structure AState where
  openSet : List (Nat × Pos)
  cameFrom : Pos → Option Pos
  gScore : Pos → Option Nat

/-- A path-reconstruction element `{"x": …, "y": …, "action": "move"}`. -/
def moveStep (p : Pos) : RouteStep := ⟨p.1, p.2, "move", none, none⟩

/-- The unreachable-goal fallback `[{"x": end.x, "y": end.y, "action": "move"}]`. -/
def fallbackStep (goal : Pos) : RouteStep := moveStep goal

/-- Path reconstruction: follow `came_from` while the key is present,
collecting cells; the source appends then reverses, which is the same as
prepending recursively.  The fuel is an upper bound on the chain length,
shown sufficient where it is used. -/
def reconstruct (cf : Pos → Option Pos) : Nat → Pos → List Pos
  | 0, _ => []
  | n + 1, cur =>
    match cf cur with
    | none => []
    | some u => reconstruct cf n u ++ [cur]

/-- One neighbour relaxation of the inner `for dx, dy in …` loop:
skip invalid cells; otherwise if the neighbour is undiscovered or improved,
record predecessor and g-score and push `(tentative_g + h, neighbour)`. -/
def relaxOne (g : WarehouseGrid) (goal cur : Pos) (gcur : Nat)
    (st : AState) (d : Int × Int) : AState :=
  let nb := nbr cur d
  if walkB g nb then
    let tg := gcur + 1
    let doUpd := match st.gScore nb with
      | none => true
      | some gn => decide (tg < gn)
    if doUpd then
      { openSet := (tg + heuristic nb goal, nb) :: st.openSet,
        cameFrom := fun p => if p = nb then some cur else st.cameFrom p,
        gScore := fun p => if p = nb then some tg else st.gScore p }
    else st
  else st

/-- Relax all four neighbours in source order. -/
def expand (g : WarehouseGrid) (goal cur : Pos) (gcur : Nat) (st : AState) :
    AState :=
  dirs.foldl (relaxOne g goal cur gcur) st

/-- The A* `while open_set:` loop.  `none` is fuel exhaustion (proved
unreachable); the `g_score` lookup of a popped node cannot fail either, but
a failure would be a `KeyError` swallowed by the blanket `except` returning
`[]`, which the model mirrors. -/
def astarLoop (g : WarehouseGrid) (goal : Pos) :
    Nat → AState → Option (List RouteStep)
  | 0, _ => none
  | fuel + 1, st =>
    match popMin st.openSet with
    | none => some [fallbackStep goal]
    | some ((_, cur), rest) =>
      if cur = goal then
        some ((reconstruct st.cameFrom (g.rows * g.cols + 2) cur).map moveStep)
      else
        match st.gScore cur with
        | none => some []
        | some gcur =>
          astarLoop g goal fuel (expand g goal cur gcur { st with openSet := rest })

/-- The initial A* state: `open_set = [(0.0, start)]`,
`g_score = {start: 0}`, empty `came_from`. -/
def initState (start : Pos) : AState :=
  { openSet := [(0, start)],
    cameFrom := fun _ => none,
    gScore := fun p => if p = start then some 0 else none }

/-- `OptimizationService._find_path`. -/
def find_path (g : WarehouseGrid) (start goal : Pos) : List RouteStep :=
  match astarLoop g goal (5 * (g.rows * g.cols) + 8) (initState start) with
  | some r => r
  | none => []

/-! ### Robots and dispatch (`OptimizationService._find_best_robot`) -/

/-- The `Robot` dataclass fields the dispatch code reads.  `battery` and
`total_distance_traveled` are floats in the source, modelled exactly as
rationals; `orders_completed` is an int. -/
structure Robot where
  id : Nat
  x : Int
  y : Int
  status : String
  battery : ℚ
  total_distance_traveled : ℚ := 0
  orders_completed : Nat := 0
deriving DecidableEq, Repr

/-- The scoring formula of `_find_best_robot`:
`(1/(distance+1)) * 0.4 + (battery/100) * 0.4 + (orders_completed / max(total_distance_traveled, 1)) * 0.2`,
with `distance` the Manhattan distance from the robot to the first item
location. -/
def robotScore (r : Robot) (loc : Pos) : ℚ :=
  let distance : ℚ := (((r.x - loc.1).natAbs + (r.y - loc.2).natAbs : Nat) : ℚ)
  (1 / (distance + 1)) * (2 / 5) + (r.battery / 100) * (2 / 5) +
    ((r.orders_completed : ℚ) / max r.total_distance_traveled 1) * (1 / 5)

/-- Robot eligibility: `r.status == "idle" and r.battery > 20`. -/
def eligB (r : Robot) : Bool :=
  r.status == "idle" && decide ((20 : ℚ) < r.battery)

/-- `OptimizationService._find_best_robot`.  The source builds
`(score, robot)` pairs, sorts them descending by score with Python's stable
sort and returns the head; since a stable descending sort puts the first
robot attaining the maximal score in front, this equals a left fold keeping
the incumbent unless a strictly larger score appears. -/
def bestFold (loc : Pos) (r : Robot) (rs : List Robot) : Robot :=
  rs.foldl (fun best cand =>
    if robotScore best loc < robotScore cand loc then cand else best) r

def find_best_robot (robots : List Robot) (loc : Pos) : Option Robot :=
  match robots.filter eligB with
  | [] => none
  | r :: rs => some (bestFold loc r rs)

/-! ### Route metrics (`OptimizationService._calculate_route_metrics`) -/

/-- The metrics dict returned by `_calculate_route_metrics`. -/
structure RouteMetrics where
  total_distance : Nat
  estimated_time : Nat
  energy_consumption : ℚ
  optimization_score : Int
deriving DecidableEq, Repr

/-- `_calculate_route_metrics(route, robot)`: every value is a fixed function
of `len(route)`; the `robot` argument is unused by the source body. -/
def calculate_route_metrics (route : List RouteStep) (_robot : Robot) :
    RouteMetrics :=
  let total_distance := route.length
  { total_distance := total_distance,
    estimated_time := total_distance * 2,
    energy_consumption := (total_distance : ℚ) * (1 / 2),
    optimization_score := max 0 (100 - ((total_distance : Int) * 2)) }

/-! ### Route generation (`OptimizationService._generate_optimized_route`) -/

/-- An entry of `item_locations`: `{"x", "y", "item": inventory_item,
"quantity"}`.  Only the inventory item's `name` is ever read, so the item
object is modelled by its name. -/
structure Target where
  x : Int
  y : Int
  item : String
  quantity : Nat
deriving DecidableEq, Repr

/-- Manhattan distance from the cursor to a target, the key of the
`min(unvisited, key=…)` selection. -/
def targetDist (cur : Pos) (t : Target) : Nat :=
  (t.x - cur.1).natAbs + (t.y - cur.2).natAbs

/-- Left fold computing the first element attaining the minimal key. -/
def tgtFold (cur : Pos) (t : Target) (ts : List Target) : Target :=
  ts.foldl (fun m u => if targetDist cur u < targetDist cur m then u else m) t

/-- Python's `min` with a key: the first element attaining the minimal key. -/
def firstMinT (cur : Pos) : List Target → Option Target
  | [] => none
  | t :: ts => some (tgtFold cur t ts)

/-- Python's `min` over exit positions by Manhattan distance from the cursor:
the first exit attaining the minimal distance. -/
def firstMinP (cur : Pos) (e : Pos) (es : List Pos) : Pos :=
  es.foldl (fun m u => if heuristic m cur ≤ heuristic u cur then m else u) e

/-- `{"x", "y", "action": "start", "item": None}` at the robot position. -/
def startStep (p : Pos) : RouteStep := ⟨p.1, p.2, "start", none, none⟩

/-- `{"x", "y", "action": "pickup", "item": name, "quantity": q}`. -/
def pickupStep (t : Target) : RouteStep :=
  ⟨t.x, t.y, "pickup", some t.item, some t.quantity⟩

/-- `{"x", "y", "action": "deliver", "item": None}`. -/
def deliverStep (p : Pos) : RouteStep := ⟨p.1, p.2, "deliver", none, none⟩

/-- The `while unvisited:` loop: repeatedly select the nearest unvisited
target (first match on ties), append the A* segment and a pickup step, move
the cursor there and remove the target.  The fuel is the list length, which
the loop consumes exactly (`unvisited.remove` deletes one occurrence per
iteration).  Returns the accumulated steps and the final cursor. -/
def visitTargets (g : WarehouseGrid) :
    Nat → Pos → List Target → List RouteStep × Pos
  | 0, cur, _ => ([], cur)
  | n + 1, cur, ts =>
    match firstMinT cur ts with
    | none => ([], cur)
    | some t =>
      let seg := find_path g cur (t.x, t.y)
      let rec_ := visitTargets g n (t.x, t.y) (ts.erase t)
      (seg ++ pickupStep t :: rec_.1, rec_.2)

/-- `OptimizationService._generate_optimized_route`.  With an empty
`warehouse_grid.exits`, `min` over the exits raises `ValueError`, the blanket
`except` logs and returns `[]`; otherwise the route is the start step, the
visiting loop, the A* segment to the nearest exit and a deliver step. -/
def generate_optimized_route (robot : Robot) (targets : List Target)
    (g : WarehouseGrid) : List RouteStep :=
  match g.exits with
  | [] => []
  | e :: es =>
    let cur0 : Pos := (robot.x, robot.y)
    let visited := visitTargets g targets.length cur0 targets
    let ex := firstMinP visited.2 e es
    startStep cur0 :: visited.1 ++ find_path g visited.2 ex ++ [deliverStep ex]

/-! ### Layout optimisation (`QLearningAgent.get_optimized_layout`,
`OptimizationService.calculate_layout_metrics_with_frequency`,
`OptimizationService.optimize_layout_with_rl`) -/

/-- A shelf dict of a layout payload: the keys the optimiser reads and
writes (`row`, `col`, `category`); other payload keys are untouched by the
code and are not modelled. -/
structure LShelf where
  row : Int
  col : Int
  category : String
deriving DecidableEq, Repr

/-- An entry point or packing station dict `{"row": …, "col": …}` as a
`(row, col)` pair. -/
abbrev RC := Int × Int

/-- The layout payload.  `shelves` is the content of the single shared
Python list object `layout_data['shelves']`: `WarehouseEnvironment.layout`
aliases `layout_data`, `get_optimized_layout`'s `layout.copy()` is a shallow
dict copy sharing that list, and the optimiser sorts it and writes shelf
fields in place, so every reference observes the same final content. -/
structure LayoutData where
  shelves : List LShelf
  entryPoints : List RC := []
  packingStations : List RC := []
  gridSize : Int := 30
deriving DecidableEq, Repr

/-- `frequency_data.get(category, dflt)` on the category→weight dict,
modelled as an association list. -/
def freqGet (freq : List (String × ℚ)) (cat : String) (dflt : ℚ) : ℚ :=
  match freq.find? (fun kv => kv.1 == cat) with
  | some kv => kv.2
  | none => dflt

/-- Manhattan distance between a shelf and a `(row, col)` point. -/
def shelfDist (s : LShelf) (p : RC) : Nat :=
  (s.row - p.1).natAbs + (s.col - p.2).natAbs

/-- The `_optimization_score` the optimiser attaches to a shelf:
`frequency_data.get(category, 1) / (distance_from_primary_entry + 1)`. -/
def shelfScore (freq : List (String × ℚ)) (entry : RC) (s : LShelf) : ℚ :=
  freqGet freq s.category 1 / ((shelfDist s entry : ℚ) + 1)

/-- Stable insertion into a descending-by-key list: the new element goes
before the first element whose key is not larger. -/
def insertDescBy (key : LShelf → ℚ) (x : LShelf) : List LShelf → List LShelf
  | [] => [x]
  | y :: ys => if key x < key y then y :: insertDescBy key x ys else x :: y :: ys

/-- Stable descending sort by key.  Python's `list.sort(key=…, reverse=True)`
is a stable descending sort, and stable sorts of a given list by a given key
are unique, so this insertion sort computes the same list. -/
def sortDescBy (key : LShelf → ℚ) : List LShelf → List LShelf
  | [] => []
  | x :: xs => insertDescBy key x (sortDescBy key xs)

/-- `max(0, min(v, grid_size - 1))`. -/
def clampI (v bound : Int) : Int := max 0 (min v (bound - 1))

/-- The new position of the shelf at sorted index `i`: it is moved to
`entry + (i // 5, i % 5)` offset by `+1` in the first half of the list and
`+3` in the second half, clamped into the grid. -/
def assignTransform (entry : RC) (gsz : Int) (half : Nat) (i : Nat)
    (s : LShelf) : LShelf :=
  let off : Int := if i < half then 1 else 3
  { s with
      row := clampI (entry.1 + ((i / 5 : Nat) : Int) + off) gsz,
      col := clampI (entry.2 + ((i % 5 : Nat) : Int) + off) gsz }

/-- Position reassignment of `get_optimized_layout` over the sorted list. -/
def assignPositions (entry : RC) (gsz : Int) (half : Nat) :
    Nat → List LShelf → List LShelf
  | _, [] => []
  | i, s :: rest =>
    assignTransform entry gsz half i s :: assignPositions entry gsz half (i + 1) rest

/-- `QLearningAgent.get_optimized_layout`: when shelves and entry points are
both nonempty, score every shelf against the primary entry point, sort the
(shared) shelf list descending by score in place and reassign positions;
otherwise the layout is returned unchanged. -/
def get_optimized_layout (layout : LayoutData) (freq : List (String × ℚ)) :
    LayoutData :=
  match layout.shelves, layout.entryPoints with
  | s₀ :: ss, e₀ :: _ =>
    let sorted := sortDescBy (shelfScore freq e₀) (s₀ :: ss)
    { layout with
        shelves := assignPositions e₀ layout.gridSize ((s₀ :: ss).length / 2) 0 sorted }
  | _, _ => layout

/-- The metrics dict of `calculate_layout_metrics_with_frequency`; the
degenerate early returns carry no `shelf_count` key, modelled as `none`. -/
structure LayoutMetrics where
  efficiency : ℚ
  distance_score : ℚ
  frequency_score : ℚ
  shelf_count : Option Nat := none
deriving DecidableEq, Repr

/-- Python's `round(x, 2)` modelled as exact rational rounding to two
decimals; no claim below depends on the float round-half-to-even corner. -/
def round2 (q : ℚ) : ℚ := (round (q * 100) : ℚ) / 100

/-- Minimum Manhattan distance from a shelf to a nonempty list of points. -/
def minDist (s : LShelf) (p : RC) (ps : List RC) : Nat :=
  ps.foldl (fun m q => min m (shelfDist s q)) (shelfDist s p)

/-- `OptimizationService.calculate_layout_metrics_with_frequency`. -/
def calculate_layout_metrics_with_frequency (layout : LayoutData)
    (freq : List (String × ℚ)) : LayoutMetrics :=
  match layout.shelves, layout.entryPoints, layout.packingStations with
  | [], _, _ => { efficiency := 0, distance_score := 0, frequency_score := 0 }
  | _, [], _ => { efficiency := 0, distance_score := 0, frequency_score := 0 }
  | _, _, [] => { efficiency := 0, distance_score := 0, frequency_score := 0 }
  | s₀ :: ss, e₀ :: es, p₀ :: ps =>
    let shelves := s₀ :: ss
    let shelf_count := shelves.length
    let scores := shelves.map (fun s =>
      let total_distance := minDist s e₀ es + minDist s p₀ ps
      let frequency_weight := freqGet freq s.category 1 / 100
      (frequency_weight * (100 / ((total_distance : ℚ) + 1)),
        (100 : ℚ) / ((total_distance : ℚ) + 1)))
    let avg_f := (scores.map Prod.fst).sum / shelf_count
    let avg_d := (scores.map Prod.snd).sum / shelf_count
    { efficiency := round2 (avg_f * (7 / 10) + avg_d * (3 / 10)),
      distance_score := round2 avg_d,
      frequency_score := round2 avg_f,
      shelf_count := some shelf_count }

/-- The result dict of `optimize_layout_with_rl`, restricted to the fields
the claims are about.  `original_layout` is the caller's `layout_data` as it
stands when the result is returned. -/
structure RLResult where
  success : Bool
  original_layout : LayoutData
  optimized_layout : LayoutData
  metrics_original : LayoutMetrics
  metrics_optimized : LayoutMetrics
deriving DecidableEq, Repr

/-- `OptimizationService.optimize_layout_with_rl`.  `WarehouseEnvironment`
aliases `layout_data` and its `shelves` list; `QLearningAgent.train` only
reads that state; `get_optimized_layout` shallow-copies the top-level dict
(sharing `shelves`), sorts the shared list in place and writes `row`/`col`
into the shared shelf dicts.  Hence by the time `original_metrics` is
computed, `layout_data` already presents the reordered shelves, which the
model expresses by evaluating both metric calls on the mutated layout. -/
def optimize_layout_with_rl (layout : LayoutData)
    (freq : List (String × ℚ)) : RLResult :=
  let optimized := get_optimized_layout layout freq
  let postOriginal : LayoutData := { layout with shelves := optimized.shelves }
  { success := true,
    original_layout := postOriginal,
    optimized_layout := optimized,
    metrics_original := calculate_layout_metrics_with_frequency postOriginal freq,
    metrics_optimized := calculate_layout_metrics_with_frequency optimized freq }

/-- The position of the cursor after visiting a list of targets in order. -/
def finalCursor (cur : Pos) : List Target → Pos
  | [] => cur
  | t :: rest => finalCursor (t.x, t.y) rest

/-! ### Specification-side predicates -/

/-- The nearest-neighbour visiting discipline of the spec: each visited
target minimises the Manhattan distance from the current cursor among the
remaining targets, ties broken by first occurrence in the remaining list,
and the cursor advances to the visited target. -/
inductive NNVisit : Pos → List Target → List Target → Prop
  | nil (cur : Pos) : NNVisit cur [] []
  | cons (cur : Pos) (ts : List Target) (t : Target) (l1 l2 : List Target)
      (rest : List Target)
      (hsplit : ts = l1 ++ t :: l2)
      (hmin : ∀ u ∈ ts, targetDist cur t ≤ targetDist cur u)
      (hfirst : ∀ u ∈ l1, targetDist cur t < targetDist cur u)
      (hrest : NNVisit (t.x, t.y) (l1 ++ l2) rest) :
      NNVisit cur ts (t :: rest)

/-! ### Auxiliary notions for the A* proof -/

/-- The finite set of walkable cells of a grid. -/
def walkCells (g : WarehouseGrid) : Finset Pos :=
  ((Finset.range g.cols ×ˢ Finset.range g.rows).image
    (fun q => ((q.1 : Int), (q.2 : Int)))).filter (fun p => walkB g p = true)

/-- The settled-independent clauses of the A* invariant: the start is
discovered at g-score 0 with no predecessor; every other discovered node has
a predecessor; predecessor links step from a discovered node with strictly
smaller g-score to an adjacent walkable cell; discovered nodes are the start
or walkable; every open entry is for a discovered node and its key dominates
`g + h` (except the initial `(0, start)` entry, whose key 0 is smaller). -/
def ABase (g : WarehouseGrid) (start goal : Pos) (st : AState) : Prop :=
  st.gScore start = some 0 ∧
  st.cameFrom start = none ∧
  (∀ p : Pos, p ≠ start → (st.gScore p).isSome → (st.cameFrom p).isSome) ∧
  (∀ p u : Pos, st.cameFrom p = some u →
    ∃ gp gu, st.gScore p = some gp ∧ st.gScore u = some gu ∧ gu < gp ∧
      adjB u p = true ∧ walkB g p = true) ∧
  (∀ p : Pos, (st.gScore p).isSome → p = start ∨ walkB g p = true) ∧
  (∀ f : Nat, ∀ p : Pos, (f, p) ∈ st.openSet →
    ∃ gp, st.gScore p = some gp ∧
      ((p = start ∧ f = 0) ∨ gp + heuristic p goal ≤ f))

/-- A settled node carries the exact shortest distance and has relaxed the
neighbours in `ds` (all of `dirs` once its expansion is complete). -/
def SClause (g : WarehouseGrid) (start : Pos) (st : AState) (u : Pos)
    (ds : List (Int × Int)) : Prop :=
  ∃ gu, st.gScore u = some gu ∧ IsDist g start u gu ∧
    ∀ d ∈ ds, walkB g (nbr u d) = true →
      ∃ gv, st.gScore (nbr u d) = some gv ∧ gv ≤ gu + 1

/-- Every discovered unsettled node still has its current entry in the open
set (the initial `(0, start)` entry stands in for the start). -/
def DClause (goal : Pos) (start : Pos) (settled : Finset Pos)
    (st : AState) : Prop :=
  ∀ p : Pos, ∀ gp : Nat, st.gScore p = some gp → p ∉ settled →
    (gp + heuristic p goal, p) ∈ st.openSet ∨
      (p = start ∧ ((0 : Nat), p) ∈ st.openSet)

/-- The A* loop invariant, with `settled` the ghost set of already popped
nodes. -/
def AInv (g : WarehouseGrid) (start goal : Pos) (settled : Finset Pos)
    (st : AState) : Prop :=
  ABase g start goal st ∧
  (∀ u ∈ settled, SClause g start st u dirs) ∧
  DClause goal start settled st

/-- Termination measure of the A* loop: every settle-pop pays for at most
four pushes, every stale pop shrinks the open set. -/
def phi (g : WarehouseGrid) (st : AState) (settled : Finset Pos) : Nat :=
  st.openSet.length + 5 * (g.rows * g.cols + 1 - settled.card)

/-! ### Concrete fixtures used by counterexamples and witnesses -/

/-- 2×2 fully walkable grid (C1 witness). -/
def gridW1 : WarehouseGrid := { rows := 2, cols := 2, grid := fun _ _ => 0 }

/-- 1×1 grid whose only cell is an Entrance (raw value 2) (C2). -/
def gridC2 : WarehouseGrid := { rows := 1, cols := 1, grid := fun _ _ => 2 }

/-- 3×3 fully walkable grid with one exit (C3 witness). -/
def gridC3 : WarehouseGrid :=
  { rows := 3, cols := 3, grid := fun _ _ => 0, exits := [(2, 2)] }

def robotC3 : Robot := ⟨7, 0, 0, "idle", 80, 0, 0⟩

def targetsC3 : List Target := [⟨1, 1, "Widget", 2⟩, ⟨0, 1, "Gadget", 1⟩]

def robotsC4 : List Robot :=
  [⟨1, 0, 0, "busy", 90, 0, 0⟩, ⟨2, 3, 0, "idle", 50, 10, 2⟩]

/-- 1×2 grid whose right cell is a shelf, so it is not walkable and not
reachable from the left cell (C6 witness). -/
def gridC6 : WarehouseGrid :=
  { rows := 1, cols := 2, grid := fun _ c => if c = 1 then 1 else 0 }

/-- The 5×5 fully walkable scenario grid with the single exit at (4,4) (C7). -/
def grid7 : WarehouseGrid :=
  { rows := 5, cols := 5, grid := fun _ _ => 0, exits := [(4, 4)] }

def robot7 : Robot := ⟨1, 0, 0, "idle", 100, 0, 0⟩

def targets7 : List Target := [⟨2, 2, "Laptop", 1⟩]

/-- A grid with no exits (C8). -/
def gridC8 : WarehouseGrid := { rows := 2, cols := 2, grid := fun _ _ => 0 }

def robotC8 : Robot := ⟨1, 0, 0, "idle", 100, 0, 0⟩

def targetC8 : Target := ⟨1, 1, "Laptop", 1⟩

/-- The claim C9 frequency table {A: 80, B: 20}. -/
def freq9 : List (String × ℚ) := [("A", 80), ("B", 20)]

/-- C9 counterexample layout: the A shelf starts far from the entry, the B
shelf next to it, so the B shelf outscores the A shelf. -/
def layout9 : LayoutData :=
  { shelves := [⟨0, 1, "B"⟩, ⟨10, 10, "A"⟩],
    entryPoints := [(0, 0)], packingStations := [(0, 0)], gridSize := 12 }

/-- C9 witness layout: the A shelf outscores the B shelf and counts are
balanced, so the amended ordering statement applies. -/
def layout9w : LayoutData :=
  { shelves := [⟨1, 0, "A"⟩, ⟨5, 5, "B"⟩],
    entryPoints := [(0, 0)], packingStations := [(0, 0)], gridSize := 12 }

def freq10 : List (String × ℚ) := [("A", 80), ("B", 20)]

/-- C10 concrete layout witnessing that the input is not preserved and that
the "original" metrics are not the metrics of the input. -/
def layout10 : LayoutData :=
  { shelves := [⟨0, 1, "B"⟩, ⟨10, 10, "A"⟩],
    entryPoints := [(0, 0)], packingStations := [(0, 0)], gridSize := 12 }

/-! ### Easy claims -/

lemma gol_mk (layout : LayoutData) (freq : List (String × ℚ)) :
    get_optimized_layout layout freq =
      { layout with shelves := (get_optimized_layout layout freq).shelves } := by
  rcases layout with ⟨sh, ep, ps, gs⟩
  rcases sh with _ | ⟨s0, ss⟩ <;> rcases ep with _ | ⟨e0, es⟩ <;>
    simp [get_optimized_layout]

/-- C2 (corrected): `is_valid_position` is true exactly on in-bounds cells
whose raw value is 0 (Walkable); Shelf, Entrance and Exit cells are all
rejected, as are out-of-bounds positions. -/
theorem C2_walkability_corrected (g : WarehouseGrid) (x y : Int) :
    g.is_valid_position x y = true ↔
      0 ≤ x ∧ x < (g.cols : Int) ∧ 0 ≤ y ∧ y < (g.rows : Int) ∧
        g.grid y.toNat x.toNat = 0 := by
  by_cases hb : 0 ≤ x ∧ x < (g.cols : Int) ∧ 0 ≤ y ∧ y < (g.rows : Int)
  · rw [WarehouseGrid.is_valid_position, if_pos hb]
    simp only [beq_iff_eq]
    exact ⟨fun h => ⟨hb.1, hb.2.1, hb.2.2.1, hb.2.2.2, h⟩, fun h => h.2.2.2.2⟩
  · rw [WarehouseGrid.is_valid_position, if_neg hb]
    simp only [Bool.false_eq_true, false_iff]
    intro h
    exact hb ⟨h.1, h.2.1, h.2.2.1, h.2.2.2.1⟩

/-- C2 counterexample: an in-bounds Entrance cell (raw value 2) is rejected
by `is_valid_position`, contradicting the claim that Entrance and Exit cells
are walkable for routing purposes. -/
theorem C2_entrance_not_walkable :
    gridC2.grid 0 0 = 2 ∧ gridC2.is_valid_position 0 0 = false := by
  decide

/-- C5 (confirmed): the route metrics are fixed functions of the route
length — `totalDistance = L`, `estimatedTime = 2L`,
`energyConsumption = 0.5 L`, `optimizationScore = max 0 (100 − 2L)` — and
all four are non-negative. -/
theorem C5_route_metrics (route : List RouteStep) (robot : Robot) :
    (calculate_route_metrics route robot).total_distance = route.length ∧
    (calculate_route_metrics route robot).estimated_time = route.length * 2 ∧
    (calculate_route_metrics route robot).energy_consumption =
      (route.length : ℚ) * (1 / 2) ∧
    (calculate_route_metrics route robot).optimization_score =
      max 0 (100 - (route.length : Int) * 2) ∧
    0 ≤ (calculate_route_metrics route robot).total_distance ∧
    0 ≤ (calculate_route_metrics route robot).estimated_time ∧
    0 ≤ (calculate_route_metrics route robot).energy_consumption ∧
    0 ≤ (calculate_route_metrics route robot).optimization_score := by
  refine ⟨rfl, rfl, rfl, rfl, Nat.zero_le _, Nat.zero_le _, ?_, le_max_left _ _⟩
  have : (0 : ℚ) ≤ (route.length : ℚ) := by positivity
  calc (0 : ℚ) ≤ (route.length : ℚ) * (1 / 2) := by linarith
    _ = (calculate_route_metrics route robot).energy_consumption := rfl

/-- C8 (corrected): with zero exits, route generation does not raise; the
`ValueError` from `min` over the empty exit list is swallowed by the blanket
`except`, which returns the empty route. -/
theorem C8_zero_exits_returns_empty (robot : Robot) (targets : List Target)
    (g : WarehouseGrid) (h : g.exits = []) :
    generate_optimized_route robot targets g = [] := by
  unfold generate_optimized_route
  rw [h]

theorem C8_zero_exits_witness :
    gridC8.exits = [] ∧
      generate_optimized_route robotC8 [targetC8] gridC8 = [] :=
  ⟨rfl, C8_zero_exits_returns_empty robotC8 [targetC8] gridC8 rfl⟩

/-- C8 counterexample: a concrete zero-exit build returns the no-op empty
route instead of failing loudly, refuting the claimed contract violation. -/
theorem C8_zero_exits_counterexample :
    generate_optimized_route robotC8 [targetC8] gridC8 = [] := by
  rfl

/-- C10 (confirmed): `optimize_layout_with_rl` overwrites its input in
place — the caller's layout presents the optimised shelf list after the
call — and the "original" metrics are computed on the already-reordered
shelves, hence always equal the "optimized" metrics.  The closed conjuncts
exhibit a concrete input whose shelves are changed and whose true input
metrics differ from the reported "original" metrics. -/
theorem C10_rl_input_mutation :
    (∀ (layout : LayoutData) (freq : List (String × ℚ)),
      (optimize_layout_with_rl layout freq).metrics_original =
        (optimize_layout_with_rl layout freq).metrics_optimized ∧
      (optimize_layout_with_rl layout freq).original_layout.shelves =
        (get_optimized_layout layout freq).shelves ∧
      (optimize_layout_with_rl layout freq).metrics_original =
        calculate_layout_metrics_with_frequency (get_optimized_layout layout freq)
          freq) ∧
    ((get_optimized_layout layout10 freq10).shelves ≠ layout10.shelves ∧
      (optimize_layout_with_rl layout10 freq10).metrics_original ≠
        calculate_layout_metrics_with_frequency layout10 freq10) := by
  constructor
  · intro layout freq
    have h := gol_mk layout freq
    refine ⟨?_, rfl, ?_⟩ <;>
      simp only [optimize_layout_with_rl, ← h]
  · exact ⟨by decide, by decide⟩

/-- C7 counterexample: on the 5×5 scenario the route has 11 steps (the Start,
Pickup and Deliver markers count), so `totalDistance` is 11 and
`optimizationScore` is 78, not the claimed 9 and 82. -/
theorem C7_scenario_metrics_counterexample :
    (calculate_route_metrics (generate_optimized_route robot7 targets7 grid7)
        robot7).total_distance = 11 ∧
    (calculate_route_metrics (generate_optimized_route robot7 targets7 grid7)
        robot7).optimization_score = 78 ∧
    ¬((calculate_route_metrics (generate_optimized_route robot7 targets7 grid7)
          robot7).total_distance = 9 ∧
      (calculate_route_metrics (generate_optimized_route robot7 targets7 grid7)
          robot7).optimization_score = 82) := by
  refine ⟨by decide, by decide, ?_⟩
  intro h
  exact absurd h.1 (by decide)

/-- C7 (corrected): the scenario route is Start(0,0), four Move steps to
(2,2), Pickup(2,2), four Move steps to (4,4), Deliver(4,4) — 11 steps in
all — and the metrics are `totalDistance = 11`, `estimatedTime = 22`,
`energyConsumption = 5.5`, `optimizationScore = max 0 (100 − 22) = 78`. -/
theorem C7_scenario_amended :
    generate_optimized_route robot7 targets7 grid7 =
      [startStep (0, 0),
       moveStep (0, 1), moveStep (0, 2), moveStep (1, 2), moveStep (2, 2),
       pickupStep ⟨2, 2, "Laptop", 1⟩,
       moveStep (2, 3), moveStep (2, 4), moveStep (3, 4), moveStep (4, 4),
       deliverStep (4, 4)] ∧
    calculate_route_metrics (generate_optimized_route robot7 targets7 grid7)
        robot7 =
      { total_distance := 11, estimated_time := 22,
        energy_consumption := 11 / 2, optimization_score := 78 } := by
  exact ⟨by decide, by decide⟩

/-! ### C4: the dispatch selector -/

lemma bestFold_spec (loc : Pos) :
    ∀ (rs : List Robot) (r : Robot),
      ∃ l1 l2, r :: rs = l1 ++ bestFold loc r rs :: l2 ∧
        (∀ u ∈ l1, robotScore u loc < robotScore (bestFold loc r rs) loc) ∧
        (∀ u ∈ r :: rs, robotScore u loc ≤ robotScore (bestFold loc r rs) loc) := by
  intro rs
  induction rs with
  | nil =>
    intro r
    refine ⟨[], [], rfl, by simp, ?_⟩
    intro u hu
    rcases List.mem_singleton.mp hu with rfl
    exact le_refl _
  | cons c cs ih =>
    intro r
    have hstep : bestFold loc r (c :: cs) =
        bestFold loc (if robotScore r loc < robotScore c loc then c else r) cs :=
      rfl
    by_cases h : robotScore r loc < robotScore c loc
    · have hB : bestFold loc r (c :: cs) = bestFold loc c cs := by
        rw [hstep, if_pos h]
      obtain ⟨m1, m2, hsplit, hfirst, hle⟩ := ih c
      rw [← hB] at hsplit hfirst hle
      refine ⟨r :: m1, m2, ?_, ?_, ?_⟩
      · simp only [List.cons_append]
        exact congrArg (List.cons r) hsplit
      · intro u hu
        rcases List.mem_cons.mp hu with rfl | hu
        · exact lt_of_lt_of_le h (hle c (List.mem_cons_self c cs))
        · exact hfirst u hu
      · intro u hu
        rcases List.mem_cons.mp hu with rfl | hu
        · exact le_of_lt (lt_of_lt_of_le h (hle c (List.mem_cons_self c cs)))
        · exact hle u hu
    · have hB : bestFold loc r (c :: cs) = bestFold loc r cs := by
        rw [hstep, if_neg h]
      obtain ⟨m1, m2, hsplit, hfirst, hle⟩ := ih r
      rw [← hB] at hsplit hfirst hle
      cases m1 with
      | nil =>
        have hBr : bestFold loc r (c :: cs) = r := by
          have := congrArg List.head? hsplit
          simpa using this.symm
        refine ⟨[], c :: cs, by rw [List.nil_append, hBr], by simp, ?_⟩
        intro u hu
        rcases List.mem_cons.mp hu with rfl | hu
        · rw [hBr]
        · rcases List.mem_cons.mp hu with rfl | hu
          · rw [hBr]; exact le_of_not_lt h
          · exact hle u (List.mem_cons_of_mem r hu)
      | cons a m1' =>
        have ha : a = r := by
          have := congrArg List.head? hsplit
          simpa using this.symm
        subst ha
        have hcs : cs = m1' ++ bestFold loc a (c :: cs) :: m2 := by
          have := congrArg List.tail hsplit
          simpa using this
        have hrfirst : robotScore a loc < robotScore (bestFold loc a (c :: cs)) loc :=
          hfirst a (List.mem_cons_self a m1')
        refine ⟨a :: c :: m1', m2, ?_, ?_, ?_⟩
        · simp only [List.cons_append]
          rw [← hcs]
        · intro u hu
          rcases List.mem_cons.mp hu with rfl | hu
          · exact hrfirst
          · rcases List.mem_cons.mp hu with rfl | hu
            · exact lt_of_le_of_lt (le_of_not_lt h) hrfirst
            · exact hfirst u (List.mem_cons_of_mem a hu)
        · intro u hu
          rcases List.mem_cons.mp hu with rfl | hu
          · exact le_of_lt hrfirst
          · rcases List.mem_cons.mp hu with rfl | hu
            · exact le_trans (le_of_not_lt h) (le_of_lt hrfirst)
            · exact hle u (List.mem_cons_of_mem a hu)

lemma eligB_iff (r : Robot) :
    eligB r = true ↔ r.status = "idle" ∧ 20 < r.battery := by
  simp [eligB]

lemma filter_split {α : Type} (p : α → Bool) :
    ∀ (l m1 : List α) (b : α) (m2 : List α), l.filter p = m1 ++ b :: m2 →
      ∃ l1 l2, l = l1 ++ b :: l2 ∧ l1.filter p = m1 ∧ p b = true := by
  intro l
  induction l with
  | nil =>
    intro m1 b m2 h
    simp at h
  | cons a as ih =>
    intro m1 b m2 h
    by_cases hp : p a
    · rw [List.filter_cons_of_pos hp] at h
      cases m1 with
      | nil =>
        simp only [List.nil_append] at h
        obtain ⟨rfl, -⟩ := List.cons.injEq a _ b _ ▸ And.intro (by
          exact (List.cons.inj h).1) (by exact (List.cons.inj h).2)
        exact ⟨[], as, rfl, rfl, hp⟩
      | cons x m1' =>
        obtain ⟨rfl, h2⟩ := List.cons.inj h
        obtain ⟨l1, l2, rfl, hf, hb⟩ := ih m1' b m2 h2
        exact ⟨a :: l1, l2, rfl, by rw [List.filter_cons_of_pos hp, hf], hb⟩
    · rw [List.filter_cons_of_neg hp] at h
      obtain ⟨l1, l2, rfl, hf, hb⟩ := ih m1 b m2 h
      exact ⟨a :: l1, l2, rfl, by rw [List.filter_cons_of_neg hp, hf], hb⟩

/-- C4 (confirmed): `_find_best_robot` returns `None` exactly when no robot
is idle with battery above 20; otherwise it returns an eligible robot of
maximal score — `0.4/(d+1) + 0.4·battery/100 + 0.2·completed/max(travelled,1)`
— and the earliest such robot in candidate order, so no robot with
battery ≤ 20 or a non-idle status is ever returned. -/
theorem C4_find_best_robot (robots : List Robot) (loc : Pos) :
    (find_best_robot robots loc = none ↔
      ∀ r ∈ robots, ¬(r.status = "idle" ∧ 20 < r.battery)) ∧
    ∀ b, find_best_robot robots loc = some b →
      (b.status = "idle" ∧ 20 < b.battery) ∧
      (∀ r ∈ robots, r.status = "idle" → 20 < r.battery →
        robotScore r loc ≤ robotScore b loc) ∧
      ∃ l1 l2, robots = l1 ++ b :: l2 ∧
        ∀ r ∈ l1, r.status = "idle" → 20 < r.battery →
          robotScore r loc < robotScore b loc := by
  constructor
  · constructor
    · intro hnone r hr hel
      have hmem : r ∈ robots.filter eligB :=
        List.mem_filter.mpr ⟨hr, (eligB_iff r).mpr hel⟩
      rw [find_best_robot] at hnone
      rcases hfil : robots.filter eligB with _ | ⟨x, xs⟩
      · rw [hfil] at hmem
        exact absurd hmem (List.not_mem_nil r)
      · rw [hfil] at hnone
        exact Option.noConfusion hnone
    · intro hall
      have hfil : robots.filter eligB = [] := by
        rcases hfil : robots.filter eligB with _ | ⟨x, xs⟩
        · rfl
        · exfalso
          have hx : x ∈ robots.filter eligB := by rw [hfil]; exact List.mem_cons_self x xs
          have := List.mem_filter.mp hx
          exact hall x this.1 ((eligB_iff x).mp this.2)
      rw [find_best_robot, hfil]
  · intro b hb
    rw [find_best_robot] at hb
    rcases hfil : robots.filter eligB with _ | ⟨x, xs⟩
    · rw [hfil] at hb
      exact Option.noConfusion hb
    · rw [hfil] at hb
      have hbval : bestFold loc x xs = b := Option.some.inj hb
      obtain ⟨m1, m2, hsplit, hfirst, hle⟩ := bestFold_spec loc xs x
      rw [hbval] at hsplit hfirst hle
      have hbmem : b ∈ robots.filter eligB := by
        rw [hfil, hsplit]
        exact List.mem_append_right m1 (List.mem_cons_self b m2)
      have hbfil := List.mem_filter.mp hbmem
      have hbelig := (eligB_iff b).mp hbfil.2
      refine ⟨hbelig, ?_, ?_⟩
      · intro r hr hst hbat
        have : r ∈ robots.filter eligB :=
          List.mem_filter.mpr ⟨hr, (eligB_iff r).mpr ⟨hst, hbat⟩⟩
        rw [hfil, hsplit] at this
        exact hle r (hsplit ▸ this)
      · have hsplit' : robots.filter eligB = m1 ++ b :: m2 := by rw [hfil, hsplit]
        obtain ⟨l1, l2, rfl, hfl1, -⟩ := filter_split eligB robots m1 b m2 hsplit'
        refine ⟨l1, l2, rfl, ?_⟩
        intro r hr hst hbat
        have : r ∈ m1 := by
          rw [← hfl1]
          exact List.mem_filter.mpr ⟨hr, (eligB_iff r).mpr ⟨hst, hbat⟩⟩
        exact hfirst r this

theorem C4_find_best_robot_witness :
    find_best_robot robotsC4 (0, 0) = some (Robot.mk 2 3 0 "idle" 50 10 2) ∧
    (((Robot.mk 2 3 0 "idle" 50 10 2).status = "idle" ∧
        (20 : ℚ) < (Robot.mk 2 3 0 "idle" 50 10 2).battery) ∧
      (∀ r ∈ robotsC4, r.status = "idle" → 20 < r.battery →
        robotScore r (0, 0) ≤ robotScore (Robot.mk 2 3 0 "idle" 50 10 2) (0, 0)) ∧
      ∃ l1 l2, robotsC4 = l1 ++ Robot.mk 2 3 0 "idle" 50 10 2 :: l2 ∧
        ∀ r ∈ l1, r.status = "idle" → 20 < r.battery →
          robotScore r (0, 0) < robotScore (Robot.mk 2 3 0 "idle" 50 10 2) (0, 0)) :=
  ⟨by decide, (C4_find_best_robot robotsC4 (0, 0)).2 _ (by decide)⟩

/-! ### C3: the route planner -/

lemma tgtFold_spec (cur : Pos) :
    ∀ (ts : List Target) (t : Target),
      ∃ l1 l2, t :: ts = l1 ++ tgtFold cur t ts :: l2 ∧
        (∀ u ∈ l1, targetDist cur (tgtFold cur t ts) < targetDist cur u) ∧
        (∀ u ∈ t :: ts, targetDist cur (tgtFold cur t ts) ≤ targetDist cur u) := by
  intro ts
  induction ts with
  | nil =>
    intro t
    refine ⟨[], [], rfl, by simp, ?_⟩
    intro u hu
    rcases List.mem_singleton.mp hu with rfl
    exact le_refl _
  | cons c cs ih =>
    intro t
    have hstep : tgtFold cur t (c :: cs) =
        tgtFold cur (if targetDist cur c < targetDist cur t then c else t) cs :=
      rfl
    by_cases h : targetDist cur c < targetDist cur t
    · have hB : tgtFold cur t (c :: cs) = tgtFold cur c cs := by
        rw [hstep, if_pos h]
      obtain ⟨m1, m2, hsplit, hfirst, hle⟩ := ih c
      rw [← hB] at hsplit hfirst hle
      refine ⟨t :: m1, m2, ?_, ?_, ?_⟩
      · simp only [List.cons_append]
        exact congrArg (List.cons t) hsplit
      · intro u hu
        rcases List.mem_cons.mp hu with rfl | hu
        · exact lt_of_le_of_lt (hle c (List.mem_cons_self c cs)) h
        · exact hfirst u hu
      · intro u hu
        rcases List.mem_cons.mp hu with rfl | hu
        · exact le_of_lt (lt_of_le_of_lt (hle c (List.mem_cons_self c cs)) h)
        · exact hle u hu
    · have hB : tgtFold cur t (c :: cs) = tgtFold cur t cs := by
        rw [hstep, if_neg h]
      obtain ⟨m1, m2, hsplit, hfirst, hle⟩ := ih t
      rw [← hB] at hsplit hfirst hle
      cases m1 with
      | nil =>
        have hBt : tgtFold cur t (c :: cs) = t := by
          have := congrArg List.head? hsplit
          simpa using this.symm
        refine ⟨[], c :: cs, by rw [List.nil_append, hBt], by simp, ?_⟩
        intro u hu
        rcases List.mem_cons.mp hu with rfl | hu
        · rw [hBt]
        · rcases List.mem_cons.mp hu with rfl | hu
          · rw [hBt]; exact le_of_not_lt h
          · exact hle u (List.mem_cons_of_mem t hu)
      | cons a m1' =>
        have ha : a = t := by
          have := congrArg List.head? hsplit
          simpa using this.symm
        subst ha
        have hcs : cs = m1' ++ tgtFold cur a (c :: cs) :: m2 := by
          have := congrArg List.tail hsplit
          simpa using this
        have hrfirst :
            targetDist cur (tgtFold cur a (c :: cs)) < targetDist cur a :=
          hfirst a (List.mem_cons_self a m1')
        refine ⟨a :: c :: m1', m2, ?_, ?_, ?_⟩
        · simp only [List.cons_append]
          rw [← hcs]
        · intro u hu
          rcases List.mem_cons.mp hu with rfl | hu
          · exact hrfirst
          · rcases List.mem_cons.mp hu with rfl | hu
            · exact lt_of_lt_of_le hrfirst (le_of_not_lt h)
            · exact hfirst u (List.mem_cons_of_mem a hu)
        · intro u hu
          rcases List.mem_cons.mp hu with rfl | hu
          · exact le_of_lt hrfirst
          · rcases List.mem_cons.mp hu with rfl | hu
            · exact le_trans (le_of_lt hrfirst) (le_of_not_lt h)
            · exact hle u (List.mem_cons_of_mem a hu)

lemma firstMinP_spec (cur : Pos) :
    ∀ (es : List Pos) (e : Pos),
      firstMinP cur e es ∈ e :: es ∧
        ∀ u ∈ e :: es, heuristic (firstMinP cur e es) cur ≤ heuristic u cur := by
  intro es
  induction es with
  | nil =>
    intro e
    refine ⟨by simp [firstMinP], ?_⟩
    intro u hu
    rcases List.mem_singleton.mp hu with rfl
    exact le_refl _
  | cons c cs ih =>
    intro e
    have hstep : firstMinP cur e (c :: cs) =
        firstMinP cur (if heuristic e cur ≤ heuristic c cur then e else c) cs :=
      rfl
    by_cases h : heuristic e cur ≤ heuristic c cur
    · have hB : firstMinP cur e (c :: cs) = firstMinP cur e cs := by
        rw [hstep, if_pos h]
      obtain ⟨hmem, hle⟩ := ih e
      rw [← hB] at hmem hle
      constructor
      · rcases List.mem_cons.mp hmem with he | hcs
        · rw [he]; exact List.mem_cons_self e (c :: cs)
        · exact List.mem_cons_of_mem e (List.mem_cons_of_mem c hcs)
      · intro u hu
        rcases List.mem_cons.mp hu with rfl | hu
        · exact hle u (List.mem_cons_self u cs)
        · rcases List.mem_cons.mp hu with rfl | hu
          · exact le_trans (hle e (List.mem_cons_self e cs)) h
          · exact hle u (List.mem_cons_of_mem e hu)
    · have hB : firstMinP cur e (c :: cs) = firstMinP cur c cs := by
        rw [hstep, if_neg h]
      obtain ⟨hmem, hle⟩ := ih c
      rw [← hB] at hmem hle
      constructor
      · exact List.mem_cons_of_mem e hmem
      · intro u hu
        rcases List.mem_cons.mp hu with rfl | hu
        · exact le_trans (hle c (List.mem_cons_self c cs)) (le_of_lt (lt_of_not_le h))
        · exact hle u hu

lemma astarLoop_moves (g : WarehouseGrid) (goal : Pos) :
    ∀ (fuel : Nat) (st : AState) (r : List RouteStep),
      astarLoop g goal fuel st = some r → ∀ s ∈ r, s.action = "move" := by
  intro fuel
  induction fuel with
  | zero =>
    intro st r h
    exact absurd h (by simp [astarLoop])
  | succ n ih =>
    intro st r h
    rw [astarLoop] at h
    rcases hpop : popMin st.openSet with _ | ⟨⟨f, cur⟩, rest⟩
    · rw [hpop] at h
      obtain rfl := Option.some.inj h
      intro s hs
      rcases List.mem_singleton.mp hs with rfl
      rfl
    · rw [hpop] at h
      dsimp only at h
      by_cases hc : cur = goal
      · rw [if_pos hc] at h
        obtain rfl := Option.some.inj h
        intro s hs
        obtain ⟨p, -, rfl⟩ := List.mem_map.mp hs
        rfl
      · rw [if_neg hc] at h
        rcases hg : st.gScore cur with _ | gcur
        · rw [hg] at h
          obtain rfl := Option.some.inj h
          intro s hs
          exact absurd hs (List.not_mem_nil s)
        · rw [hg] at h
          exact ih _ _ h

lemma find_path_moves (g : WarehouseGrid) (a b : Pos) :
    ∀ s ∈ find_path g a b, s.action = "move" := by
  intro s hs
  rw [find_path] at hs
  rcases h : astarLoop g b (5 * (g.rows * g.cols) + 8) (initState a) with _ | r
  · rw [h] at hs
    exact absurd hs (List.not_mem_nil s)
  · rw [h] at hs
    exact astarLoop_moves g b _ _ r h s hs

lemma moves_filter_none (l : List RouteStep)
    (hmv : ∀ s ∈ l, s.action = "move") (a : String) (ha : a ≠ "move") :
    l.filter (fun s => s.action == a) = [] := by
  rw [List.filter_eq_nil_iff]
  intro s hs
  rw [hmv s hs]
  simp
  exact fun h => ha h.symm

lemma visitTargets_spec (g : WarehouseGrid) :
    ∀ (n : Nat) (ts : List Target) (cur : Pos), ts.length = n →
      ∃ order : List Target,
        NNVisit cur ts order ∧
        order.Perm ts ∧
        (visitTargets g n cur ts).1.filter (fun s => s.action == "pickup") =
          order.map pickupStep ∧
        (visitTargets g n cur ts).1.filter (fun s => s.action == "start") = [] ∧
        (visitTargets g n cur ts).1.filter (fun s => s.action == "deliver") = [] ∧
        (visitTargets g n cur ts).2 = finalCursor cur order := by
  intro n
  induction n with
  | zero =>
    intro ts cur hlen
    obtain rfl := List.length_eq_zero.mp hlen
    exact ⟨[], NNVisit.nil cur, List.Perm.refl [], rfl, rfl, rfl, rfl⟩
  | succ n ih =>
    intro ts cur hlen
    rcases ts with _ | ⟨t0, ts'⟩
    · exact absurd hlen (by simp)
    obtain ⟨l1, l2, hsplit, hfirst, hle⟩ := tgtFold_spec cur ts' t0
    have hBnot : tgtFold cur t0 ts' ∉ l1 := fun hmem =>
      lt_irrefl _ (hfirst (tgtFold cur t0 ts') hmem)
    have herase : (t0 :: ts').erase (tgtFold cur t0 ts') = l1 ++ l2 := by
      rw [hsplit, List.erase_append_right (tgtFold cur t0 ts' :: l2) hBnot,
        List.erase_cons_head]
    have hlen' : ((t0 :: ts').erase (tgtFold cur t0 ts')).length = n := by
      have h1 := congrArg List.length hsplit
      simp only [List.length_cons, List.length_append] at h1 hlen
      rw [herase]
      simp only [List.length_append]
      omega
    obtain ⟨order', hNN', hperm', hpick', hstart', hdel', hfin'⟩ :=
      ih ((t0 :: ts').erase (tgtFold cur t0 ts'))
        ((tgtFold cur t0 ts').x, (tgtFold cur t0 ts').y) hlen'
    have hv : visitTargets g (n + 1) cur (t0 :: ts') =
        (find_path g cur ((tgtFold cur t0 ts').x, (tgtFold cur t0 ts').y) ++
            pickupStep (tgtFold cur t0 ts') ::
              (visitTargets g n ((tgtFold cur t0 ts').x, (tgtFold cur t0 ts').y)
                ((t0 :: ts').erase (tgtFold cur t0 ts'))).1,
          (visitTargets g n ((tgtFold cur t0 ts').x, (tgtFold cur t0 ts').y)
            ((t0 :: ts').erase (tgtFold cur t0 ts'))).2) := rfl
    refine ⟨tgtFold cur t0 ts' :: order', ?_, ?_, ?_, ?_, ?_, ?_⟩
    · refine NNVisit.cons cur (t0 :: ts') (tgtFold cur t0 ts') l1 l2 order'
        hsplit hle hfirst ?_
      rw [← herase]
      exact hNN'
    · rw [herase] at hperm'
      rw [hsplit]
      exact (hperm'.cons _).trans List.perm_middle.symm
    · rw [hv]
      simp only [List.filter_append, List.filter_cons]
      rw [moves_filter_none _ (find_path_moves g cur _) "pickup" (by decide)]
      simp only [List.nil_append, List.map_cons]
      rw [hpick']
      simp [pickupStep]
    · rw [hv]
      simp only [List.filter_append, List.filter_cons]
      rw [moves_filter_none _ (find_path_moves g cur _) "start" (by decide)]
      rw [hstart']
      simp [pickupStep]
    · rw [hv]
      simp only [List.filter_append, List.filter_cons]
      rw [moves_filter_none _ (find_path_moves g cur _) "deliver" (by decide)]
      rw [hdel']
      simp [pickupStep]
    · rw [hv]
      exact hfin'

lemma finalCursor_getLast :
    ∀ (order : List Target), order ≠ [] → ∀ (cur : Pos),
      ∃ tl, order.getLast? = some tl ∧ finalCursor cur order = (tl.x, tl.y) := by
  intro order
  induction order with
  | nil => intro h; exact absurd rfl h
  | cons t rest ih =>
    intro _ cur
    rcases rest with _ | ⟨u, us⟩
    · exact ⟨t, rfl, rfl⟩
    · obtain ⟨tl, h1, h2⟩ := ih (by simp) (t.x, t.y)
      exact ⟨tl, by rw [List.getLast?_cons_cons]; exact h1, h2⟩

lemma generate_route_eq (robot : Robot) (targets : List Target)
    (g : WarehouseGrid) (e : Pos) (es : List Pos) (hex : g.exits = e :: es) :
    generate_optimized_route robot targets g =
      startStep (robot.x, robot.y) ::
        (visitTargets g targets.length (robot.x, robot.y) targets).1 ++
        find_path g (visitTargets g targets.length (robot.x, robot.y) targets).2
          (firstMinP (visitTargets g targets.length (robot.x, robot.y) targets).2
            e es) ++
        [deliverStep
          (firstMinP (visitTargets g targets.length (robot.x, robot.y) targets).2
            e es)] := by
  rw [generate_optimized_route, hex]

/-- C3 (confirmed): with at least one exit and a nonempty target list, the
route starts with exactly one Start step at the robot position, its Pickup
steps are exactly one per target, each carrying the target's item name and
quantity, in nearest-neighbour order with ties broken by first occurrence,
and it ends with exactly one terminal Deliver step at the first exit of
minimal Manhattan distance from the final pickup position. -/
theorem C3_route_planner (robot : Robot) (targets : List Target)
    (g : WarehouseGrid) (hT : targets ≠ []) (hE : g.exits ≠ []) :
    ∃ (order : List Target) (tl : Target) (ex : Pos),
      order.Perm targets ∧
      NNVisit (robot.x, robot.y) targets order ∧
      order.getLast? = some tl ∧
      ex ∈ g.exits ∧
      (∀ e2 ∈ g.exits, heuristic ex (tl.x, tl.y) ≤ heuristic e2 (tl.x, tl.y)) ∧
      (generate_optimized_route robot targets g).head? =
        some (startStep (robot.x, robot.y)) ∧
      (generate_optimized_route robot targets g).filter
        (fun s => s.action == "start") = [startStep (robot.x, robot.y)] ∧
      (generate_optimized_route robot targets g).filter
        (fun s => s.action == "pickup") = order.map pickupStep ∧
      (generate_optimized_route robot targets g).filter
        (fun s => s.action == "deliver") = [deliverStep ex] ∧
      (generate_optimized_route robot targets g).getLast? =
        some (deliverStep ex) := by
  rcases hex : g.exits with _ | ⟨e, es⟩
  · exact absurd hex hE
  obtain ⟨order, hNN, hperm, hpick, hstart, hdel, hfin⟩ :=
    visitTargets_spec g targets.length targets (robot.x, robot.y) rfl
  have hordne : order ≠ [] := by
    intro h
    rw [h] at hperm
    exact hT hperm.nil_eq.symm
  obtain ⟨tl, hlast, hfc⟩ := finalCursor_getLast order hordne (robot.x, robot.y)
  have hfin2 : (visitTargets g targets.length (robot.x, robot.y) targets).2 =
      (tl.x, tl.y) := by
    rw [hfin, hfc]
  obtain ⟨hexmem, hexle⟩ :=
    firstMinP_spec (visitTargets g targets.length (robot.x, robot.y) targets).2
      es e
  have hroute := generate_route_eq robot targets g e es hex
  refine ⟨order, tl,
    firstMinP (visitTargets g targets.length (robot.x, robot.y) targets).2 e es,
    hperm, hNN, hlast, ?_, ?_, ?_, ?_, ?_, ?_, ?_⟩
  · exact hexmem
  · intro e2 he2
    rw [← hfin2]
    exact hexle e2 he2
  · rw [hroute]
    rfl
  · rw [hroute]
    simp only [List.cons_append, List.append_assoc]
    rw [List.filter_cons_of_pos (by rfl)]
    rw [List.filter_append, List.filter_append]
    rw [hstart,
      moves_filter_none _ (find_path_moves g _ _) "start" (by decide),
      List.filter_cons_of_neg (by exact Bool.false_ne_true), List.filter_nil]
    rfl
  · rw [hroute]
    simp only [List.cons_append, List.append_assoc]
    rw [List.filter_cons_of_neg (by exact Bool.false_ne_true)]
    rw [List.filter_append, List.filter_append]
    rw [hpick,
      moves_filter_none _ (find_path_moves g _ _) "pickup" (by decide),
      List.filter_cons_of_neg (by exact Bool.false_ne_true), List.filter_nil]
    simp
  · rw [hroute]
    simp only [List.cons_append, List.append_assoc]
    rw [List.filter_cons_of_neg (by exact Bool.false_ne_true)]
    rw [List.filter_append, List.filter_append]
    rw [hdel,
      moves_filter_none _ (find_path_moves g _ _) "deliver" (by decide),
      List.filter_cons_of_pos (by rfl), List.filter_nil]
    rfl
  · rw [hroute]
    exact List.getLast?_concat _

theorem C3_route_planner_witness :
    (targetsC3 ≠ [] ∧ gridC3.exits ≠ []) ∧
    (∃ (order : List Target) (tl : Target) (ex : Pos),
      order.Perm targetsC3 ∧
      NNVisit (robotC3.x, robotC3.y) targetsC3 order ∧
      order.getLast? = some tl ∧
      ex ∈ gridC3.exits ∧
      (∀ e2 ∈ gridC3.exits, heuristic ex (tl.x, tl.y) ≤ heuristic e2 (tl.x, tl.y)) ∧
      (generate_optimized_route robotC3 targetsC3 gridC3).head? =
        some (startStep (robotC3.x, robotC3.y)) ∧
      (generate_optimized_route robotC3 targetsC3 gridC3).filter
        (fun s => s.action == "start") = [startStep (robotC3.x, robotC3.y)] ∧
      (generate_optimized_route robotC3 targetsC3 gridC3).filter
        (fun s => s.action == "pickup") = order.map pickupStep ∧
      (generate_optimized_route robotC3 targetsC3 gridC3).filter
        (fun s => s.action == "deliver") = [deliverStep ex] ∧
      (generate_optimized_route robotC3 targetsC3 gridC3).getLast? =
        some (deliverStep ex)) :=
  ⟨⟨by decide, by decide⟩,
    C3_route_planner robotC3 targetsC3 gridC3 (by decide) (by decide)⟩

/-! ### C9: the layout optimiser ordering -/

lemma insertDescBy_perm (key : LShelf → ℚ) (x : LShelf) :
    ∀ l : List LShelf, (insertDescBy key x l).Perm (x :: l) := by
  intro l
  induction l with
  | nil => exact List.Perm.refl _
  | cons y ys ih =>
    rw [insertDescBy]
    by_cases h : key x < key y
    · rw [if_pos h]
      exact (ih.cons y).trans (List.Perm.swap x y ys)
    · rw [if_neg h]

lemma sortDescBy_perm (key : LShelf → ℚ) :
    ∀ l : List LShelf, (sortDescBy key l).Perm l := by
  intro l
  induction l with
  | nil => exact List.Perm.refl _
  | cons x xs ih =>
    rw [sortDescBy]
    exact (insertDescBy_perm key x (sortDescBy key xs)).trans (ih.cons x)

lemma insertDescBy_sorted (key : LShelf → ℚ) (x : LShelf) :
    ∀ l : List LShelf, List.Pairwise (fun a b => key b ≤ key a) l →
      List.Pairwise (fun a b => key b ≤ key a) (insertDescBy key x l) := by
  intro l
  induction l with
  | nil =>
    intro _
    exact List.pairwise_singleton _ x
  | cons y ys ih =>
    intro h
    obtain ⟨hy, hys⟩ := List.pairwise_cons.mp h
    rw [insertDescBy]
    by_cases hxy : key x < key y
    · rw [if_pos hxy]
      refine List.pairwise_cons.mpr ⟨?_, ih hys⟩
      intro z hz
      have hz' : z ∈ x :: ys := (insertDescBy_perm key x ys).mem_iff.mp hz
      rcases List.mem_cons.mp hz' with rfl | hz'
      · exact le_of_lt hxy
      · exact hy z hz'
    · rw [if_neg hxy]
      refine List.pairwise_cons.mpr ⟨?_, h⟩
      intro z hz
      rcases List.mem_cons.mp hz with rfl | hz
      · exact le_of_not_lt hxy
      · exact le_trans (hy z hz) (le_of_not_lt hxy)

lemma sortDescBy_sorted (key : LShelf → ℚ) :
    ∀ l : List LShelf, List.Pairwise (fun a b => key b ≤ key a) (sortDescBy key l) := by
  intro l
  induction l with
  | nil => exact List.Pairwise.nil
  | cons x xs ih =>
    rw [sortDescBy]
    exact insertDescBy_sorted key x (sortDescBy key xs) ih

lemma assignPositions_mem (entry : RC) (gsz : Int) (half : Nat) :
    ∀ (l : List LShelf) (i : Nat) (x : LShelf),
      x ∈ assignPositions entry gsz half i l →
      ∃ j : Nat, ∃ hj : j < l.length,
        x = assignTransform entry gsz half (i + j) (l.get ⟨j, hj⟩) := by
  intro l
  induction l with
  | nil =>
    intro i x hx
    exact absurd hx (List.not_mem_nil x)
  | cons s rest ih =>
    intro i x hx
    rw [assignPositions] at hx
    rcases List.mem_cons.mp hx with rfl | hx
    · exact ⟨0, Nat.succ_pos _, by rw [Nat.add_zero]; rfl⟩
    · obtain ⟨j, hj, hx'⟩ := ih (i + 1) x hx
      refine ⟨j + 1, Nat.succ_lt_succ hj, ?_⟩
      rw [hx']
      congr 1
      omega

lemma assignTransform_category (entry : RC) (gsz : Int) (half i : Nat)
    (s : LShelf) : (assignTransform entry gsz half i s).category = s.category :=
  rfl

lemma clampI_eq (v bound : Int) (h0 : 0 ≤ v) (h1 : v ≤ bound - 1) :
    clampI v bound = v := by
  rw [clampI, min_eq_left h1, max_eq_right h0]

lemma sorted_separation (key : LShelf → ℚ) (l : List LShelf) (k : Nat)
    (hlen : l.length = 2 * k)
    (hcat : ∀ s ∈ l, s.category = "A" ∨ s.category = "B")
    (hcount : (l.filter (fun s => s.category == "A")).length = k)
    (hsep : ∀ sa ∈ l, sa.category = "A" →
      ∀ sb ∈ l, sb.category = "B" → key sb < key sa)
    (hsorted : List.Pairwise (fun a b => key b ≤ key a) l) :
    (∀ a ∈ l.take k, a.category = "A") ∧ (∀ b ∈ l.drop k, b.category = "B") := by
  have htd : l.take k ++ l.drop k = l := List.take_append_drop k l
  have hlen_take : (l.take k).length = k := by
    rw [List.length_take]
    omega
  have hpw : List.Pairwise (fun a b => key b ≤ key a) (l.take k ++ l.drop k) := by
    rw [htd]
    exact hsorted
  obtain ⟨-, -, hcross⟩ := List.pairwise_append.mp hpw
  have hcount_split :
      ((l.take k).filter (fun s => s.category == "A")).length +
        ((l.drop k).filter (fun s => s.category == "A")).length = k := by
    have h := congrArg
      (fun t => (t.filter (fun s => s.category == "A")).length) htd
    simp only [List.filter_append, List.length_append] at h
    rw [h, hcount]
  have htake : ∀ a ∈ l.take k, a.category = "A" := by
    intro a ha
    by_contra hna
    have haB : a.category = "B" :=
      (hcat a (List.mem_of_mem_take ha)).resolve_left hna
    have h1 : ((l.take k).filter (fun s => s.category == "A")).length <
        (l.take k).length := by
      rw [List.length_filter_lt_length_iff_exists]
      exact ⟨a, ha, by simp [haB]⟩
    have h2 : 1 ≤ ((l.drop k).filter (fun s => s.category == "A")).length := by
      omega
    have hne : (l.drop k).filter (fun s => s.category == "A") ≠ [] := by
      intro hnil
      rw [hnil] at h2
      simp at h2
    obtain ⟨b, hb⟩ := List.exists_mem_of_ne_nil _ hne
    have hb' := List.mem_filter.mp hb
    have hbA : b.category = "A" := by
      have := hb'.2
      simpa using this
    have hlt := hsep b (List.mem_of_mem_drop hb'.1) hbA a
      (List.mem_of_mem_take ha) haB
    have hle := hcross a ha b hb'.1
    exact absurd hle (not_le_of_lt hlt)
  refine ⟨htake, ?_⟩
  have hfself : (l.take k).filter (fun s => s.category == "A") = l.take k :=
    List.filter_eq_self.mpr (fun a ha => by simp [htake a ha])
  have hzero : ((l.drop k).filter (fun s => s.category == "A")).length = 0 := by
    rw [hfself, hlen_take] at hcount_split
    omega
  have hnilf : (l.drop k).filter (fun s => s.category == "A") = [] :=
    List.length_eq_zero.mp hzero
  intro b hb
  have hnb : ¬(b.category == "A") = true := by
    have := List.filter_eq_nil_iff.mp hnilf b hb
    exact this
  have : b.category ≠ "A" := by
    intro h
    exact hnb (by simp [h])
  exact (hcat b (List.mem_of_mem_drop hb)).resolve_left this

lemma div_mod_stride (i j : Nat) (h : i < j) :
    i / 5 + i % 5 + 2 < j / 5 + j % 5 + 6 := by
  omega

/-- C9 (corrected): under the added hypotheses that the counterexample
forces — every A shelf outscores every B shelf under the optimiser's score
`weight / (original distance + 1)`, the A shelves fill exactly the top half
of the list, and the entry point sits far enough from the grid edge that the
row/column striding is not clamped — the optimised layout places every A
shelf strictly closer (Manhattan) to the primary entry point than every B
shelf. -/
theorem C9_layout_ordering_amended (layout : LayoutData) (k : Nat)
    (e0 : RC) (erest : List RC)
    (hk : 0 < k)
    (hentry : layout.entryPoints = e0 :: erest)
    (hlen : layout.shelves.length = 2 * k)
    (hcat : ∀ s ∈ layout.shelves, s.category = "A" ∨ s.category = "B")
    (hcount : (layout.shelves.filter (fun s => s.category == "A")).length = k)
    (hsep : ∀ sa ∈ layout.shelves, sa.category = "A" →
      ∀ sb ∈ layout.shelves, sb.category = "B" →
        shelfScore freq9 e0 sb < shelfScore freq9 e0 sa)
    (he0r : 0 ≤ e0.1) (he0c : 0 ≤ e0.2)
    (hrow : e0.1 + (((2 * k - 1) / 5 : Nat) : Int) + 3 ≤ layout.gridSize - 1)
    (hcol : e0.2 + 7 ≤ layout.gridSize - 1) :
    ∀ sa ∈ (get_optimized_layout layout freq9).shelves, sa.category = "A" →
      ∀ sb ∈ (get_optimized_layout layout freq9).shelves, sb.category = "B" →
        shelfDist sa e0 < shelfDist sb e0 := by
  rcases hsh : layout.shelves with _ | ⟨s0, ss⟩
  · rw [hsh] at hlen
    simp at hlen
    omega
  rw [hsh] at hlen hcat hcount hsep
  have hhalf : (s0 :: ss).length / 2 = k := by
    rw [hlen]
    omega
  have hgol : (get_optimized_layout layout freq9).shelves =
      assignPositions e0 layout.gridSize k 0
        (sortDescBy (shelfScore freq9 e0) (s0 :: ss)) := by
    rw [get_optimized_layout, hsh, hentry]
    dsimp only
    rw [hhalf]
  have hper := sortDescBy_perm (shelfScore freq9 e0) (s0 :: ss)
  have hsorted := sortDescBy_sorted (shelfScore freq9 e0) (s0 :: ss)
  have hlen' : (sortDescBy (shelfScore freq9 e0) (s0 :: ss)).length = 2 * k := by
    rw [hper.length_eq, hlen]
  have hcat' : ∀ s ∈ sortDescBy (shelfScore freq9 e0) (s0 :: ss),
      s.category = "A" ∨ s.category = "B" :=
    fun s hs => hcat s (hper.mem_iff.mp hs)
  have hcount' : ((sortDescBy (shelfScore freq9 e0) (s0 :: ss)).filter
      (fun s => s.category == "A")).length = k := by
    rw [(hper.filter _).length_eq, hcount]
  have hsep' : ∀ sa ∈ sortDescBy (shelfScore freq9 e0) (s0 :: ss),
      sa.category = "A" →
      ∀ sb ∈ sortDescBy (shelfScore freq9 e0) (s0 :: ss), sb.category = "B" →
        shelfScore freq9 e0 sb < shelfScore freq9 e0 sa :=
    fun sa hsa ha sb hsb hb =>
      hsep sa (hper.mem_iff.mp hsa) ha sb (hper.mem_iff.mp hsb) hb
  obtain ⟨htake, hdrop⟩ := sorted_separation (shelfScore freq9 e0)
    (sortDescBy (shelfScore freq9 e0) (s0 :: ss)) k hlen' hcat' hcount'
    hsep' hsorted
  have hidx : ∀ (j : Nat) (hj : j < (sortDescBy (shelfScore freq9 e0)
      (s0 :: ss)).length),
      ((sortDescBy (shelfScore freq9 e0) (s0 :: ss)).get ⟨j, hj⟩).category = "A" →
      j < k := by
    intro j hj hA
    by_contra hge
    have hjk : j = k + (j - k) := by omega
    have hmem : (sortDescBy (shelfScore freq9 e0) (s0 :: ss)).get ⟨j, hj⟩ ∈
        (sortDescBy (shelfScore freq9 e0) (s0 :: ss)).drop k := by
      have h1 : (sortDescBy (shelfScore freq9 e0) (s0 :: ss)).get ⟨j, hj⟩ =
          ((sortDescBy (shelfScore freq9 e0) (s0 :: ss)).drop k).get
            ⟨j - k, by rw [List.length_drop]; omega⟩ := by
        rw [List.get_eq_getElem, List.get_eq_getElem, List.getElem_drop]
        congr 1
      rw [h1]
      exact List.get_mem _ _ _
    have := hdrop _ hmem
    rw [hA] at this
    exact absurd this (by decide)
  have hidx2 : ∀ (j : Nat) (hj : j < (sortDescBy (shelfScore freq9 e0)
      (s0 :: ss)).length),
      ((sortDescBy (shelfScore freq9 e0) (s0 :: ss)).get ⟨j, hj⟩).category = "B" →
      k ≤ j := by
    intro j hj hB
    by_contra hlt
    have hmem : (sortDescBy (shelfScore freq9 e0) (s0 :: ss)).get ⟨j, hj⟩ ∈
        (sortDescBy (shelfScore freq9 e0) (s0 :: ss)).take k := by
      have h1 : (sortDescBy (shelfScore freq9 e0) (s0 :: ss)).get ⟨j, hj⟩ =
          ((sortDescBy (shelfScore freq9 e0) (s0 :: ss)).take k).get
            ⟨j, by rw [List.length_take]; omega⟩ := by
        rw [List.get_eq_getElem, List.get_eq_getElem, List.getElem_take]
      rw [h1]
      exact List.get_mem _ _ _
    have := htake _ hmem
    rw [hB] at this
    exact absurd this (by decide)
  intro sa hsa hAa sb hsb hBb
  rw [hgol] at hsa hsb
  obtain ⟨j, hj, hja⟩ := assignPositions_mem e0 layout.gridSize k _ 0 sa hsa
  obtain ⟨j2, hj2, hjb⟩ := assignPositions_mem e0 layout.gridSize k _ 0 sb hsb
  rw [Nat.zero_add] at hja hjb
  have hcatA : ((sortDescBy (shelfScore freq9 e0) (s0 :: ss)).get
      ⟨j, hj⟩).category = "A" := by
    rw [← assignTransform_category e0 layout.gridSize k j, ← hja]
    exact hAa
  have hcatB : ((sortDescBy (shelfScore freq9 e0) (s0 :: ss)).get
      ⟨j2, hj2⟩).category = "B" := by
    rw [← assignTransform_category e0 layout.gridSize k j2, ← hjb]
    exact hBb
  have hjlt : j < k := hidx j hj hcatA
  have hjge : k ≤ j2 := hidx2 j2 hj2 hcatB
  have hjub : j ≤ 2 * k - 1 := by
    rw [hlen'] at hj
    omega
  have hj2ub : j2 ≤ 2 * k - 1 := by
    rw [hlen'] at hj2
    omega
  have hdivj : (j / 5 : Nat) ≤ (2 * k - 1) / 5 := Nat.div_le_div_right hjub
  have hdivj2 : (j2 / 5 : Nat) ≤ (2 * k - 1) / 5 := Nat.div_le_div_right hj2ub
  have hda : shelfDist sa e0 = j / 5 + j % 5 + 2 := by
    rw [hja, assignTransform]
    simp only [if_pos hjlt]
    rw [shelfDist]
    rw [clampI_eq _ _ (by omega) (by
      have := hdivj
      omega), clampI_eq _ _ (by omega) (by
      have h5 : (j % 5 : Nat) ≤ 4 := by omega
      omega)]
    dsimp only
    omega
  have hdb : shelfDist sb e0 = j2 / 5 + j2 % 5 + 6 := by
    rw [hjb, assignTransform]
    simp only [if_neg (by omega : ¬ j2 < k)]
    rw [shelfDist]
    rw [clampI_eq _ _ (by omega) (by
      have := hdivj2
      omega), clampI_eq _ _ (by omega) (by
      have h5 : (j2 % 5 : Nat) ≤ 4 := by omega
      omega)]
    dsimp only
    omega
  rw [hda, hdb]
  exact div_mod_stride j j2 (by omega)

/-- C9 counterexample: with {A: 80, B: 20} but the A shelf starting far from
the entry, the optimiser's score ranks the B shelf first, so the optimised
layout places the B shelf strictly closer to the primary entry point than
the A shelf, refuting the claimed ordering for grids of size ≥ 4. -/
theorem C9_layout_counterexample :
    ¬(∀ sa ∈ (get_optimized_layout layout9 freq9).shelves, sa.category = "A" →
      ∀ sb ∈ (get_optimized_layout layout9 freq9).shelves, sb.category = "B" →
        shelfDist sa ((0 : Int), (0 : Int)) <
          shelfDist sb ((0 : Int), (0 : Int))) := by
  decide

theorem C9_layout_ordering_witness :
    ((0 : Nat) < 1 ∧ layout9w.entryPoints = ((0 : Int), (0 : Int)) :: [] ∧
      layout9w.shelves.length = 2 * 1 ∧
      (∀ s ∈ layout9w.shelves, s.category = "A" ∨ s.category = "B") ∧
      (layout9w.shelves.filter (fun s => s.category == "A")).length = 1 ∧
      (∀ sa ∈ layout9w.shelves, sa.category = "A" →
        ∀ sb ∈ layout9w.shelves, sb.category = "B" →
          shelfScore freq9 ((0 : Int), (0 : Int)) sb <
            shelfScore freq9 ((0 : Int), (0 : Int)) sa) ∧
      (0 : Int) ≤ ((0 : Int), (0 : Int)).1 ∧
      (((0 : Int), (0 : Int)).1 + (((2 * 1 - 1) / 5 : Nat) : Int) + 3 ≤
        layout9w.gridSize - 1) ∧
      (((0 : Int), (0 : Int)).2 + 7 ≤ layout9w.gridSize - 1)) ∧
    (∀ sa ∈ (get_optimized_layout layout9w freq9).shelves, sa.category = "A" →
      ∀ sb ∈ (get_optimized_layout layout9w freq9).shelves, sb.category = "B" →
        shelfDist sa ((0 : Int), (0 : Int)) <
          shelfDist sb ((0 : Int), (0 : Int))) :=
  ⟨⟨by decide, by decide, by decide, by decide, by decide, by decide,
    by decide, by decide, by decide⟩,
    C9_layout_ordering_amended layout9w 1 ((0 : Int), (0 : Int)) []
      (by decide) (by decide) (by decide) (by decide) (by decide) (by decide)
      (by decide) (by decide) (by decide) (by decide)⟩

/-! ### C1/C6: A* walk and distance groundwork -/

lemma adjB_of_dir (u : Pos) (d : Int × Int) (hd : d ∈ dirs) :
    adjB u (nbr u d) = true := by
  rcases u with ⟨ux, uy⟩
  simp only [dirs, List.mem_cons, List.not_mem_nil, or_false] at hd
  rcases hd with rfl | rfl | rfl | rfl <;>
    simp [adjB, nbr, heuristic]

lemma adjB_to_dir (u v : Pos) (h : adjB u v = true) :
    ∃ d ∈ dirs, v = nbr u d := by
  rcases u with ⟨ux, uy⟩
  rcases v with ⟨vx, vy⟩
  simp only [adjB, heuristic, beq_iff_eq] at h
  have hcase : (vx = ux ∧ vy = uy + 1) ∨ (vx = ux + 1 ∧ vy = uy) ∨
      (vx = ux ∧ vy = uy - 1) ∨ (vx = ux - 1 ∧ vy = uy) := by
    omega
  rcases hcase with ⟨rfl, rfl⟩ | ⟨rfl, rfl⟩ | ⟨h1, h2⟩ | ⟨h1, h2⟩
  · exact ⟨(0, 1), by simp [dirs], by simp [nbr]⟩
  · exact ⟨(1, 0), by simp [dirs], by simp [nbr]⟩
  · exact ⟨(0, -1), by simp [dirs], by simp [nbr]; omega⟩
  · exact ⟨(-1, 0), by simp [dirs], by simp [nbr]; omega⟩

lemma heuristic_self (p : Pos) : heuristic p p = 0 := by
  simp [heuristic]

lemma heuristic_step (p q goalP : Pos) (h : adjB p q = true) :
    heuristic p goalP ≤ heuristic q goalP + 1 := by
  rcases p with ⟨px, py⟩
  rcases q with ⟨qx, qy⟩
  rcases goalP with ⟨gx, gy⟩
  simp only [adjB, heuristic, beq_iff_eq] at h ⊢
  omega

lemma walkList_append (g : WarehouseGrid) :
    ∀ (l1 : List Pos) (s m : Pos) (l2 : List Pos) (t : Pos),
      walkList g s l1 m = true → walkList g m l2 t = true →
      walkList g s (l1 ++ l2) t = true := by
  intro l1
  induction l1 with
  | nil =>
    intro s m l2 t h1 h2
    rw [walkList] at h1
    obtain rfl := beq_iff_eq.mp h1
    exact h2
  | cons p ps ih =>
    intro s m l2 t h1 h2
    rw [walkList] at h1
    simp only [Bool.and_eq_true] at h1
    obtain ⟨⟨ha, hw⟩, hrest⟩ := h1
    rw [List.cons_append, walkList]
    simp only [Bool.and_eq_true]
    exact ⟨⟨ha, hw⟩, ih p m l2 t hrest h2⟩

lemma walkList_snoc (g : WarehouseGrid) (s m p : Pos) (l : List Pos)
    (h1 : walkList g s l m = true) (ha : adjB m p = true)
    (hw : walkB g p = true) : walkList g s (l ++ [p]) p = true := by
  refine walkList_append g l s m [p] p h1 ?_
  rw [walkList]
  simp [ha, hw, walkList]

lemma walkList_concat (g : WarehouseGrid) :
    ∀ (l : List Pos) (s p t : Pos),
      walkList g s (l ++ [p]) t = true →
      t = p ∧ adjB (l.getLastD s) p = true ∧ walkB g p = true ∧
        walkList g s l (l.getLastD s) = true := by
  intro l
  induction l with
  | nil =>
    intro s p t h
    rw [List.nil_append, walkList] at h
    simp only [Bool.and_eq_true] at h
    obtain ⟨⟨ha, hw⟩, ht⟩ := h
    rw [walkList] at ht
    obtain rfl := beq_iff_eq.mp ht
    exact ⟨rfl, ha, hw, by rw [walkList]; simp⟩
  | cons q qs ih =>
    intro s p t h
    rw [List.cons_append, walkList] at h
    simp only [Bool.and_eq_true] at h
    obtain ⟨⟨ha, hw⟩, hrest⟩ := h
    obtain ⟨ht, ha2, hw2, hwalk⟩ := ih q p t hrest
    refine ⟨ht, ?_, hw2, ?_⟩
    · rw [List.getLastD_cons]
      exact ha2
    · rw [List.getLastD_cons, walkList]
      simp only [Bool.and_eq_true]
      exact ⟨⟨ha, hw⟩, hwalk⟩

lemma walkList_mem_walkable (g : WarehouseGrid) :
    ∀ (l : List Pos) (s t : Pos), walkList g s l t = true →
      ∀ p ∈ l, walkB g p = true := by
  intro l
  induction l with
  | nil =>
    intro s t _ p hp
    exact absurd hp (List.not_mem_nil p)
  | cons q qs ih =>
    intro s t h p hp
    rw [walkList] at h
    simp only [Bool.and_eq_true] at h
    obtain ⟨⟨-, hw⟩, hrest⟩ := h
    rcases List.mem_cons.mp hp with rfl | hp
    · exact hw
    · exact ih q t hrest p hp

lemma heuristic_walk (g : WarehouseGrid) (goalP : Pos) :
    ∀ (l : List Pos) (s t : Pos), walkList g s l t = true →
      heuristic s goalP ≤ l.length + heuristic t goalP := by
  intro l
  induction l with
  | nil =>
    intro s t h
    rw [walkList] at h
    obtain rfl := beq_iff_eq.mp h
    simp
  | cons q qs ih =>
    intro s t h
    rw [walkList] at h
    simp only [Bool.and_eq_true] at h
    obtain ⟨⟨ha, -⟩, hrest⟩ := h
    have h1 := heuristic_step s q goalP ha
    have h2 := ih q t hrest
    simp only [List.length_cons]
    omega

lemma reachable_self (g : WarehouseGrid) (s : Pos) : Reachable g s s :=
  ⟨[], by rw [walkList]; simp⟩

lemma isDist_le (g : WarehouseGrid) (s t : Pos) (n : Nat)
    (hd : IsDist g s t n) (l : List Pos) (hl : walkList g s l t = true) :
    n ≤ l.length :=
  hd.2 l hl

lemma exists_isDist (g : WarehouseGrid) (s t : Pos)
    (h : Reachable g s t) : ∃ n, IsDist g s t n := by
  classical
  obtain ⟨l, hl⟩ := h
  have hne : {n : Nat | ∃ l2, walkList g s l2 t = true ∧ l2.length = n}.Nonempty :=
    ⟨l.length, l, hl, rfl⟩
  refine ⟨sInf {n : Nat | ∃ l2, walkList g s l2 t = true ∧ l2.length = n}, ?_, ?_⟩
  · exact Nat.sInf_mem hne
  · intro l2 hl2
    exact Nat.sInf_le ⟨l2, hl2, rfl⟩

lemma isDist_unique (g : WarehouseGrid) (s t : Pos) (n m : Nat)
    (hn : IsDist g s t n) (hm : IsDist g s t m) : n = m := by
  obtain ⟨⟨l1, hl1, hlen1⟩, hmin1⟩ := hn
  obtain ⟨⟨l2, hl2, hlen2⟩, hmin2⟩ := hm
  have h1 := hmin1 l2 hl2
  have h2 := hmin2 l1 hl1
  omega

lemma isDist_zero (g : WarehouseGrid) (s : Pos) : IsDist g s s 0 :=
  ⟨⟨[], by rw [walkList]; simp, rfl⟩, fun l _ => Nat.zero_le _⟩

lemma dist_step (g : WarehouseGrid) (s u v : Pos) (n : Nat)
    (hn : IsDist g s u n) (ha : adjB u v = true) (hw : walkB g v = true) :
    ∀ m, IsDist g s v m → m ≤ n + 1 := by
  intro m hm
  obtain ⟨⟨l, hl, hlen⟩, -⟩ := hn
  have hwalk := walkList_snoc g s u v l hl ha hw
  have := hm.2 (l ++ [v]) hwalk
  simp only [List.length_append, List.length_singleton] at this
  omega

lemma walkList_split (g : WarehouseGrid) :
    ∀ (l1 l2 : List Pos) (s t : Pos), walkList g s (l1 ++ l2) t = true →
      walkList g s l1 (l1.getLastD s) = true ∧
        walkList g (l1.getLastD s) l2 t = true := by
  intro l1
  induction l1 with
  | nil =>
    intro l2 s t h
    exact ⟨by rw [walkList]; simp, h⟩
  | cons q qs ih =>
    intro l2 s t h
    rw [List.cons_append, walkList] at h
    simp only [Bool.and_eq_true] at h
    obtain ⟨⟨ha, hw⟩, hrest⟩ := h
    obtain ⟨h1, h2⟩ := ih l2 q t hrest
    refine ⟨?_, ?_⟩
    · rw [List.getLastD_cons, walkList]
      simp only [Bool.and_eq_true]
      exact ⟨⟨ha, hw⟩, h1⟩
    · rw [List.getLastD_cons]
      exact h2

lemma walkList_shorten (g : WarehouseGrid) :
    ∀ (l : List Pos) (s t : Pos), walkList g s l t = true → ¬l.Nodup →
      ∃ l2, walkList g s l2 t = true ∧ l2.length < l.length := by
  intro l
  induction l with
  | nil =>
    intro s t _ hnd
    exact absurd List.nodup_nil hnd
  | cons c cs ih =>
    intro s t h hnd
    rw [walkList] at h
    simp only [Bool.and_eq_true] at h
    obtain ⟨⟨ha, hw⟩, hrest⟩ := h
    by_cases hc : c ∈ cs
    · obtain ⟨cs1, cs2, rfl⟩ := List.append_of_mem hc
      have hassoc : walkList g c ((cs1 ++ [c]) ++ cs2) t = true := by
        simpa using hrest
      obtain ⟨-, h2⟩ := walkList_split g (cs1 ++ [c]) cs2 c t hassoc
      have hlastc : (cs1 ++ [c]).getLastD c = c := by
        simp
      rw [hlastc] at h2
      refine ⟨c :: cs2, ?_, ?_⟩
      · rw [walkList]
        simp only [Bool.and_eq_true]
        exact ⟨⟨ha, hw⟩, h2⟩
      · simp only [List.length_cons, List.length_append]
        omega
    · have hnd2 : ¬cs.Nodup := by
        intro hnd2
        exact hnd (List.nodup_cons.mpr ⟨hc, hnd2⟩)
      obtain ⟨l2, hl2, hlen⟩ := ih c t hrest hnd2
      refine ⟨c :: l2, ?_, by simpa using hlen⟩
      rw [walkList]
      simp only [Bool.and_eq_true]
      exact ⟨⟨ha, hw⟩, hl2⟩

lemma mem_walkCells (g : WarehouseGrid) (p : Pos) (h : walkB g p = true) :
    p ∈ walkCells g := by
  rw [walkCells, Finset.mem_filter]
  refine ⟨?_, h⟩
  rw [Finset.mem_image]
  have hbounds : 0 ≤ p.1 ∧ p.1 < (g.cols : Int) ∧ 0 ≤ p.2 ∧ p.2 < (g.rows : Int) := by
    rw [walkB, WarehouseGrid.is_valid_position] at h
    by_cases hb : 0 ≤ p.1 ∧ p.1 < (g.cols : Int) ∧ 0 ≤ p.2 ∧ p.2 < (g.rows : Int)
    · exact hb
    · rw [if_neg hb] at h
      exact absurd h (by simp)
  refine ⟨(p.1.toNat, p.2.toNat), ?_, ?_⟩
  · rw [Finset.mem_product]
    constructor
    · rw [Finset.mem_range]
      omega
    · rw [Finset.mem_range]
      omega
  · rcases p with ⟨px, py⟩
    simp only
    rw [Int.toNat_of_nonneg hbounds.1, Int.toNat_of_nonneg hbounds.2.2.1]

lemma walkCells_card (g : WarehouseGrid) :
    (walkCells g).card ≤ g.rows * g.cols := by
  calc (walkCells g).card
      ≤ ((Finset.range g.cols ×ˢ Finset.range g.rows).image
          (fun q : Nat × Nat => ((q.1 : Int), (q.2 : Int)))).card :=
        Finset.card_filter_le _ _
    _ ≤ (Finset.range g.cols ×ˢ Finset.range g.rows).card :=
        Finset.card_image_le
    _ = g.cols * g.rows := by
        rw [Finset.card_product, Finset.card_range, Finset.card_range]
    _ = g.rows * g.cols := Nat.mul_comm _ _

lemma isDist_le_area (g : WarehouseGrid) (s t : Pos) (n : Nat)
    (hd : IsDist g s t n) : n ≤ g.rows * g.cols := by
  obtain ⟨⟨l, hl, hlen⟩, hmin⟩ := hd
  have hnd : l.Nodup := by
    by_contra hnd
    obtain ⟨l2, hl2, hlt⟩ := walkList_shorten g l s t hl hnd
    have := hmin l2 hl2
    omega
  have hsub : ∀ p ∈ l, p ∈ walkCells g :=
    fun p hp => mem_walkCells g p (walkList_mem_walkable g l s t hl p hp)
  have hcard : l.length ≤ (walkCells g).card := by
    have h1 : l.toFinset.card = l.length := List.toFinset_card_of_nodup hnd
    have h2 : l.toFinset ⊆ walkCells g := fun p hp =>
      hsub p (List.mem_toFinset.mp hp)
    have := Finset.card_le_card h2
    omega
  have := walkCells_card g
  omega

lemma entryLtB_fst (a b : Nat × Pos) (h : entryLtB a b = true) : a.1 ≤ b.1 := by
  rw [entryLtB] at h
  simp only [Bool.or_eq_true, Bool.and_eq_true, decide_eq_true_eq,
    beq_iff_eq] at h
  omega

lemma entryLtB_fst_not (a b : Nat × Pos) (h : entryLtB a b = false) :
    b.1 ≤ a.1 := by
  rw [entryLtB] at h
  simp only [Bool.or_eq_false_iff] at h
  have h1 := h.1
  simp only [decide_eq_false_iff_not] at h1
  omega

lemma pickMin_spec :
    ∀ (l : List (Nat × Pos)) (m : Nat × Pos),
      (pickMin m l = m ∨ pickMin m l ∈ l) ∧
        (pickMin m l).1 ≤ m.1 ∧ ∀ e ∈ l, (pickMin m l).1 ≤ e.1 := by
  intro l
  induction l with
  | nil =>
    intro m
    exact ⟨Or.inl rfl, le_refl _, by simp⟩
  | cons e es ih =>
    intro m
    have hstep : pickMin m (e :: es) =
        pickMin (if entryLtB e m then e else m) es := rfl
    by_cases h : entryLtB e m = true
    · rw [if_pos h] at hstep
      obtain ⟨hmem, hle, hall⟩ := ih e
      rw [← hstep] at hmem hle hall
      have hem := entryLtB_fst e m h
      refine ⟨?_, by omega, ?_⟩
      · rcases hmem with h1 | h1
        · exact Or.inr (by rw [h1]; exact List.mem_cons_self e es)
        · exact Or.inr (List.mem_cons_of_mem e h1)
      · intro e2 he2
        rcases List.mem_cons.mp he2 with rfl | he2
        · omega
        · exact hall e2 he2
    · rw [if_neg h] at hstep
      obtain ⟨hmem, hle, hall⟩ := ih m
      rw [← hstep] at hmem hle hall
      have hme := entryLtB_fst_not e m (by
        rcases h2 : entryLtB e m with _ | _
        · rfl
        · exact absurd h2 h)
      refine ⟨?_, hle, ?_⟩
      · rcases hmem with h1 | h1
        · exact Or.inl h1
        · exact Or.inr (List.mem_cons_of_mem e h1)
      · intro e2 he2
        rcases List.mem_cons.mp he2 with rfl | he2
        · omega
        · exact hall e2 he2

lemma popMin_none (l : List (Nat × Pos)) : popMin l = none ↔ l = [] := by
  rcases l with _ | ⟨e, es⟩
  · simp [popMin]
  · simp [popMin]

lemma popMin_spec (l : List (Nat × Pos)) (e : Nat × Pos)
    (rest : List (Nat × Pos)) (h : popMin l = some (e, rest)) :
    e ∈ l ∧ rest = l.erase e ∧ ∀ e2 ∈ l, e.1 ≤ e2.1 := by
  rcases l with _ | ⟨x, xs⟩
  · exact absurd h (by simp [popMin])
  · rw [popMin] at h
    obtain ⟨h1, h2⟩ := Prod.mk.inj (Option.some.inj h)
    obtain ⟨hmem, hle, hall⟩ := pickMin_spec xs x
    subst h1
    refine ⟨?_, h2.symm, ?_⟩
    · rcases hmem with h3 | h3
      · rw [h3]
        exact List.mem_cons_self x xs
      · exact List.mem_cons_of_mem x h3
    · intro e2 he2
      rcases List.mem_cons.mp he2 with rfl | he2
      · exact hle
      · exact hall e2 he2

lemma abase_chain (g : WarehouseGrid) (start goal : Pos) (st : AState)
    (hb : ABase g start goal st) :
    ∀ (gp : Nat) (p : Pos), st.gScore p = some gp →
      ∃ l, walkList g start l p = true ∧ l.length ≤ gp := by
  obtain ⟨ha1, ha2, ha3, hr, hdom, he⟩ := hb
  intro gp
  induction gp using Nat.strong_induction_on with
  | _ gp ih =>
    intro p hp
    by_cases hps : p = start
    · subst hps
      exact ⟨[], by rw [walkList]; simp, Nat.zero_le _⟩
    · have hcf : (st.cameFrom p).isSome := ha3 p hps (by rw [hp]; rfl)
      obtain ⟨u, hu⟩ := Option.isSome_iff_exists.mp hcf
      obtain ⟨gp2, gu, hgp2, hgu, hlt, hadj, hwalk⟩ := hr p u hu
      rw [hp] at hgp2
      obtain rfl := Option.some.inj hgp2
      obtain ⟨lu, hlu, hlen⟩ := ih gu hlt u hgu
      refine ⟨lu ++ [p], walkList_snoc g start u p lu hlu hadj hwalk, ?_⟩
      simp only [List.length_append, List.length_singleton]
      omega

lemma abase_dist_le (g : WarehouseGrid) (start goal : Pos) (st : AState)
    (hb : ABase g start goal st) (p : Pos) (gp : Nat)
    (hp : st.gScore p = some gp) (n : Nat) (hn : IsDist g start p n) :
    n ≤ gp := by
  obtain ⟨l, hl, hlen⟩ := abase_chain g start goal st hb gp p hp
  have := hn.2 l hl
  omega

lemma abase_reachable (g : WarehouseGrid) (start goal : Pos) (st : AState)
    (hb : ABase g start goal st) (p : Pos) (gp : Nat)
    (hp : st.gScore p = some gp) : Reachable g start p := by
  obtain ⟨l, hl, -⟩ := abase_chain g start goal st hb gp p hp
  exact ⟨l, hl⟩

lemma reconstruct_spec (g : WarehouseGrid) (start goal : Pos) (st : AState)
    (hb : ABase g start goal st) :
    ∀ (gp : Nat) (p : Pos) (fuel : Nat), st.gScore p = some gp → gp < fuel →
      walkList g start (reconstruct st.cameFrom fuel p) p = true ∧
        (reconstruct st.cameFrom fuel p).length ≤ gp := by
  obtain ⟨ha1, ha2, ha3, hr, hdom, he⟩ := hb
  intro gp
  induction gp using Nat.strong_induction_on with
  | _ gp ih =>
    intro p fuel hp hfuel
    rcases fuel with _ | f
    · omega
    rw [reconstruct]
    rcases hcf : st.cameFrom p with _ | u
    · have hps : p = start := by
        by_contra hps
        have := ha3 p hps (by rw [hp]; rfl)
        rw [hcf] at this
        exact absurd this (by simp)
      subst hps
      exact ⟨by rw [walkList]; simp, Nat.zero_le _⟩
    · obtain ⟨gp2, gu, hgp2, hgu, hlt, hadj, hwalk⟩ := hr p u hcf
      rw [hp] at hgp2
      obtain rfl := Option.some.inj hgp2
      obtain ⟨hwalkrec, hlenrec⟩ := ih gu hlt u f hgu (by omega)
      refine ⟨walkList_snoc g start u p _ hwalkrec hadj hwalk, ?_⟩
      simp only [List.length_append, List.length_singleton]
      omega

lemma openWitness (g : WarehouseGrid) (start goal : Pos)
    (settled : Finset Pos) (st : AState)
    (hb : ABase g start goal st)
    (hS : ∀ u ∈ settled, SClause g start st u dirs)
    (hD : DClause goal start settled st) :
    ∀ (n : Nat) (l : List Pos) (v : Pos), l.length = n →
      walkList g start l v = true → IsDist g start v l.length →
      v ∉ settled →
      ∃ f y, (f, y) ∈ st.openSet ∧ f ≤ l.length + heuristic v goal := by
  intro n
  induction n using Nat.strong_induction_on with
  | _ n ih =>
    intro l v hlen hwalk hdist hns
    rcases List.eq_nil_or_concat l with rfl | ⟨l2, v2, rfl⟩
    · rw [walkList] at hwalk
      obtain rfl := beq_iff_eq.mp hwalk
      have hg0 := hb.1
      rcases hD start 0 hg0 hns with hmem | ⟨-, hmem⟩
      · exact ⟨0 + heuristic start goal, start, hmem, by simp⟩
      · exact ⟨0, start, hmem, Nat.zero_le _⟩
    · simp only [List.concat_eq_append] at hwalk hlen hdist ⊢
      obtain ⟨rfl, hadj, hwv, hwalk2⟩ := walkList_concat g l2 start v2 v hwalk
      have hdu : IsDist g start (l2.getLastD start) l2.length := by
        refine ⟨⟨l2, hwalk2, rfl⟩, ?_⟩
        intro l3 hl3
        have hsn := walkList_snoc g start (l2.getLastD start) v l3 hl3 hadj hwv
        have := hdist.2 (l3 ++ [v]) hsn
        simp only [List.length_append, List.length_singleton] at this ⊢
        omega
      by_cases hus : l2.getLastD start ∈ settled
      · obtain ⟨gu, hgu, hgud, hnbrs⟩ := hS _ hus
        have hgueq : gu = l2.length := isDist_unique g start _ _ _ hgud hdu
        obtain ⟨d, hd, hvd⟩ := adjB_to_dir _ v hadj
        obtain ⟨gv, hgv, hgvle⟩ := hnbrs d hd (by rw [← hvd]; exact hwv)
        rw [← hvd] at hgv
        have hlow : l2.length + 1 ≤ gv := by
          have := abase_dist_le g start goal st hb v gv hgv _ hdist
          simp only [List.length_append, List.length_singleton] at this
          omega
        have hgveq : gv = l2.length + 1 := by omega
        rcases hD v gv hgv hns with hmem | ⟨-, hmem⟩
        · refine ⟨gv + heuristic v goal, v, hmem, ?_⟩
          simp only [List.length_append, List.length_singleton]
          omega
        · exact ⟨0, v, hmem, Nat.zero_le _⟩
      · obtain ⟨f, y, hmem, hfle⟩ := ih l2.length (by
          simp only [List.length_append, List.length_singleton] at hlen
          omega) l2 (l2.getLastD start) rfl hwalk2 hdu hus
        refine ⟨f, y, hmem, ?_⟩
        have hstep := heuristic_step (l2.getLastD start) v goal hadj
        simp only [List.length_append, List.length_singleton]
        omega

lemma pop_exact (g : WarehouseGrid) (start goal : Pos) (settled : Finset Pos)
    (st : AState) (hb : ABase g start goal st)
    (hS : ∀ u ∈ settled, SClause g start st u dirs)
    (hD : DClause goal start settled st)
    (f : Nat) (cur : Pos) (rest : List (Nat × Pos))
    (hpop : popMin st.openSet = some ((f, cur), rest))
    (hns : cur ∉ settled) :
    ∃ gc, st.gScore cur = some gc ∧ IsDist g start cur gc := by
  obtain ⟨hmem, hrestEq, hmin⟩ := popMin_spec _ _ _ hpop
  obtain ⟨gc, hgc, hfprop⟩ := hb.2.2.2.2.2 f cur hmem
  have hreach := abase_reachable g start goal st hb cur gc hgc
  obtain ⟨n, hn⟩ := exists_isDist g start cur hreach
  obtain ⟨l, hl, hlen⟩ := hn.1
  have hdl : IsDist g start cur l.length := by
    rw [hlen]
    exact hn
  obtain ⟨fy, y, hymem, hyle⟩ :=
    openWitness g start goal settled st hb hS hD l.length l cur rfl hl hdl hns
  have hffy : f ≤ fy := hmin (fy, y) hymem
  rcases hfprop with ⟨rfl, -⟩ | hge
  · have ha1 := hb.1
    rw [hgc] at ha1
    obtain rfl := Option.some.inj ha1
    exact ⟨0, hgc, isDist_zero g cur⟩
  · have h1 : gc ≤ n := by
      rw [hlen] at hyle
      omega
    have h2 : n ≤ gc := abase_dist_le g start goal st hb cur gc hgc n hn
    have hgcn : gc = n := by omega
    exact ⟨gc, hgc, hgcn ▸ hn⟩

lemma nbr_ne_self (cur : Pos) (d : Int × Int) (hd : d ∈ dirs) :
    nbr cur d ≠ cur := by
  intro h
  have h1 := adjB_of_dir cur d hd
  rw [h] at h1
  rw [adjB, heuristic_self] at h1
  exact absurd h1 (by simp)

lemma relaxOne_not_walk (g : WarehouseGrid) (goal cur : Pos) (gcur : Nat)
    (st : AState) (d : Int × Int) (h : walkB g (nbr cur d) = false) :
    relaxOne g goal cur gcur st d = st := by
  rw [relaxOne]
  simp only [h]
  rfl

lemma relaxOne_no_update (g : WarehouseGrid) (goal cur : Pos) (gcur : Nat)
    (st : AState) (d : Int × Int) (gv : Nat)
    (hw : walkB g (nbr cur d) = true)
    (hg : st.gScore (nbr cur d) = some gv) (hge : ¬gcur + 1 < gv) :
    relaxOne g goal cur gcur st d = st := by
  rw [relaxOne]
  simp only [hw, hg, if_true, decide_eq_true_eq]
  rw [if_neg]
  exact hge

lemma relaxOne_update (g : WarehouseGrid) (goal cur : Pos) (gcur : Nat)
    (st : AState) (d : Int × Int)
    (hw : walkB g (nbr cur d) = true)
    (hupd : st.gScore (nbr cur d) = none ∨
      ∃ gv, st.gScore (nbr cur d) = some gv ∧ gcur + 1 < gv) :
    relaxOne g goal cur gcur st d =
      { openSet := (gcur + 1 + heuristic (nbr cur d) goal, nbr cur d) ::
          st.openSet,
        cameFrom := fun p => if p = nbr cur d then some cur else st.cameFrom p,
        gScore := fun p => if p = nbr cur d then some (gcur + 1)
          else st.gScore p } := by
  rw [relaxOne]
  simp only [hw, if_true]
  rcases hupd with hnone | ⟨gv, hsome, hlt⟩
  · rw [hnone]
    rfl
  · rw [hsome]
    simp only [decide_eq_true_eq]
    rw [if_pos hlt]

lemma relaxOne_noop (g : WarehouseGrid) (start goal cur : Pos) (gcur : Nat)
    (st : AState) (d : Int × Int) (hd : d ∈ dirs)
    (hcur : st.gScore cur = some gcur)
    (hsc : SClause g start st cur dirs) :
    relaxOne g goal cur gcur st d = st := by
  obtain ⟨gu, hgu, hgud, hnbrs⟩ := hsc
  rw [hcur] at hgu
  have hx : gcur = gu := Option.some.inj hgu
  subst hx
  by_cases hw : walkB g (nbr cur d) = true
  · obtain ⟨gv, hgv, hle⟩ := hnbrs d hd hw
    exact relaxOne_no_update g goal cur gcur st d gv hw hgv (by omega)
  · exact relaxOne_not_walk g goal cur gcur st d (Bool.eq_false_iff.mpr hw)

lemma relaxOne_step (g : WarehouseGrid) (start goal cur : Pos) (gcur : Nat)
    (settled : Finset Pos) (done : List (Int × Int)) (d : Int × Int)
    (st : AState) (hd : d ∈ dirs)
    (hcur_g : st.gScore cur = some gcur)
    (hcur_dist : IsDist g start cur gcur)
    (hb : ABase g start goal st)
    (hS : ∀ u ∈ settled, SClause g start st u dirs)
    (hD : DClause goal start (insert cur settled) st)
    (hpart : SClause g start st cur done) :
    ABase g start goal (relaxOne g goal cur gcur st d) ∧
    (∀ u ∈ settled, SClause g start (relaxOne g goal cur gcur st d) u dirs) ∧
    DClause goal start (insert cur settled) (relaxOne g goal cur gcur st d) ∧
    SClause g start (relaxOne g goal cur gcur st d) cur (done ++ [d]) ∧
    (relaxOne g goal cur gcur st d).gScore cur = some gcur ∧
    (relaxOne g goal cur gcur st d).openSet.length ≤ st.openSet.length + 1 := by
  obtain ⟨ha1, ha2, ha3, hr, hdom, he⟩ := hb
  by_cases hw : walkB g (nbr cur d) = true
  case neg =>
    have hwf : walkB g (nbr cur d) = false := Bool.eq_false_iff.mpr hw
    rw [relaxOne_not_walk g goal cur gcur st d hwf]
    refine ⟨⟨ha1, ha2, ha3, hr, hdom, he⟩, hS, hD, ?_, hcur_g, by omega⟩
    obtain ⟨gu, hgu, hgud, hnbrs⟩ := hpart
    refine ⟨gu, hgu, hgud, ?_⟩
    intro d2 hd2 hw2
    rcases List.mem_append.mp hd2 with hd2 | hd2
    · exact hnbrs d2 hd2 hw2
    · rcases List.mem_singleton.mp hd2 with rfl
      rw [hwf] at hw2
      exact absurd hw2 (by simp)
  case pos =>
  by_cases hupd : st.gScore (nbr cur d) = none ∨
      ∃ gv, st.gScore (nbr cur d) = some gv ∧ gcur + 1 < gv
  case neg =>
    have hsome : ∃ gv, st.gScore (nbr cur d) = some gv ∧ ¬gcur + 1 < gv := by
      rcases hgn : st.gScore (nbr cur d) with _ | gv
      · exact absurd (Or.inl hgn) hupd
      · refine ⟨gv, rfl, ?_⟩
        intro hlt
        exact hupd (Or.inr ⟨gv, hgn, hlt⟩)
    obtain ⟨gv, hgv, hge⟩ := hsome
    rw [relaxOne_no_update g goal cur gcur st d gv hw hgv hge]
    refine ⟨⟨ha1, ha2, ha3, hr, hdom, he⟩, hS, hD, ?_, hcur_g, by omega⟩
    obtain ⟨gu, hgu, hgud, hnbrs⟩ := hpart
    have hgueq : gu = gcur := by
      rw [hgu] at hcur_g
      exact Option.some.inj hcur_g
    refine ⟨gu, hgu, hgud, ?_⟩
    intro d2 hd2 hw2
    rcases List.mem_append.mp hd2 with hd2 | hd2
    · exact hnbrs d2 hd2 hw2
    · rcases List.mem_singleton.mp hd2 with rfl
      exact ⟨gv, hgv, by omega⟩
  case pos =>
    have hne_start : nbr cur d ≠ start := by
      intro hns
      have h0 : st.gScore (nbr cur d) = some 0 := by
        rw [hns]
        exact ha1
      rcases hupd with hnone | ⟨gv, hsomev, hlt⟩
      · rw [h0] at hnone
        exact Option.noConfusion hnone
      · rw [h0] at hsomev
        obtain rfl := Option.some.inj hsomev
        omega
    have hne_cur : nbr cur d ≠ cur := nbr_ne_self cur d hd
    have hadj : adjB cur (nbr cur d) = true := adjB_of_dir cur d hd
    rw [relaxOne_update g goal cur gcur st d hw hupd]
    simp only [ABase, SClause, DClause]
    refine ⟨⟨?_, ?_, ?_, ?_, ?_, ?_⟩, ?_, ?_, ?_, ?_, ?_⟩
    · rw [if_neg (fun h => hne_start h.symm)]
      exact ha1
    · rw [if_neg (fun h => hne_start h.symm)]
      exact ha2
    · intro p hps hsome2
      by_cases hp : p = nbr cur d
      · simp only [if_pos hp]
        rfl
      · simp only [if_neg hp] at hsome2 ⊢
        exact ha3 p hps hsome2
    · intro p u hcf2
      by_cases hp : p = nbr cur d
      · rw [if_pos hp] at hcf2
        obtain rfl := Option.some.inj hcf2
        subst hp
        refine ⟨gcur + 1, gcur, by rw [if_pos rfl], ?_, by omega, hadj, hw⟩
        rw [if_neg (fun h => hne_cur h.symm)]
        exact hcur_g
      · rw [if_neg hp] at hcf2
        obtain ⟨gp, gu2, hgp, hgu2, hlt2, hadj2, hw2⟩ := hr p u hcf2
        by_cases hu : u = nbr cur d
        · rcases hupd with hnone | ⟨gv, hsomev, hltv⟩
          · rw [hu, hnone] at hgu2
            exact Option.noConfusion hgu2
          · rw [hu, hsomev] at hgu2
            obtain rfl := Option.some.inj hgu2
            refine ⟨gp, gcur + 1, by rw [if_neg hp]; exact hgp,
              by rw [if_pos hu], by omega, hadj2, hw2⟩
        · exact ⟨gp, gu2, by rw [if_neg hp]; exact hgp,
            by rw [if_neg hu]; exact hgu2, hlt2, hadj2, hw2⟩
    · intro p hsome2
      by_cases hp : p = nbr cur d
      · right
        rw [hp]
        exact hw
      · simp only [if_neg hp] at hsome2
        exact hdom p hsome2
    · intro f2 p hmem2
      rcases List.mem_cons.mp hmem2 with heq | hmem2
      · obtain ⟨hf2, hp⟩ := Prod.mk.inj heq
        subst hp
        refine ⟨gcur + 1, by rw [if_pos rfl], Or.inr ?_⟩
        omega
      · obtain ⟨gp, hgp, hprop⟩ := he f2 p hmem2
        by_cases hp : p = nbr cur d
        · rcases hupd with hnone | ⟨gv, hsomev, hltv⟩
          · rw [hp, hnone] at hgp
            exact Option.noConfusion hgp
          · rw [hp, hsomev] at hgp
            obtain rfl := Option.some.inj hgp
            refine ⟨gcur + 1, by rw [if_pos hp], Or.inr ?_⟩
            rcases hprop with ⟨hps, -⟩ | hge2
            · rw [hp] at hps
              exact absurd hps hne_start
            · rw [hp] at hge2 ⊢
              omega
        · exact ⟨gp, by rw [if_neg hp]; exact hgp, hprop⟩
    · intro u hu
      obtain ⟨gu, hgu, hgud, hnbrs⟩ := hS u hu
      have hune : u ≠ nbr cur d := by
        intro h
        rcases hupd with hnone | ⟨gv, hsomev, hltv⟩
        · rw [h, hnone] at hgu
          exact Option.noConfusion hgu
        · rw [h, hsomev] at hgu
          obtain rfl := Option.some.inj hgu
          have := dist_step g start cur (nbr cur d) gcur hcur_dist hadj hw gv
            (h ▸ hgud)
          omega
      refine ⟨gu, by rw [if_neg hune]; exact hgu, hgud, ?_⟩
      intro d2 hd2 hw2
      obtain ⟨gv2, hgv2, hle2⟩ := hnbrs d2 hd2 hw2
      by_cases hvn : nbr u d2 = nbr cur d
      · rcases hupd with hnone | ⟨gv, hsomev, hltv⟩
        · rw [hvn, hnone] at hgv2
          exact Option.noConfusion hgv2
        · rw [hvn, hsomev] at hgv2
          obtain rfl := Option.some.inj hgv2
          exact ⟨gcur + 1, by rw [if_pos hvn], by omega⟩
      · exact ⟨gv2, by rw [if_neg hvn]; exact hgv2, hle2⟩
    · intro p gp hgp2 hpns
      by_cases hp : p = nbr cur d
      · rw [if_pos hp] at hgp2
        obtain rfl := Option.some.inj hgp2
        left
        rw [hp]
        exact List.mem_cons_self _ _
      · rw [if_neg hp] at hgp2
        rcases hD p gp hgp2 hpns with hmem2 | ⟨hps, hmem2⟩
        · exact Or.inl (List.mem_cons_of_mem _ hmem2)
        · exact Or.inr ⟨hps, List.mem_cons_of_mem _ hmem2⟩
    · obtain ⟨gu, hgu, hgud, hnbrs⟩ := hpart
      have hgueq : gu = gcur := by
        rw [hgu] at hcur_g
        exact Option.some.inj hcur_g
      refine ⟨gu, by rw [if_neg (fun h => hne_cur h.symm)]; exact hgu, hgud, ?_⟩
      intro d2 hd2 hw2
      rcases List.mem_append.mp hd2 with hd2 | hd2
      · obtain ⟨gv2, hgv2, hle2⟩ := hnbrs d2 hd2 hw2
        by_cases hvn : nbr cur d2 = nbr cur d
        · exact ⟨gcur + 1, by rw [if_pos hvn], by omega⟩
        · exact ⟨gv2, by rw [if_neg hvn]; exact hgv2, hle2⟩
      · rcases List.mem_singleton.mp hd2 with rfl
        exact ⟨gcur + 1, by rw [if_pos rfl], by omega⟩
    · rw [if_neg (fun h => hne_cur h.symm)]
      exact hcur_g
    · simp only [List.length_cons]
      omega

lemma expand_eq (g : WarehouseGrid) (goal cur : Pos) (gcur : Nat)
    (st : AState) :
    expand g goal cur gcur st =
      relaxOne g goal cur gcur
        (relaxOne g goal cur gcur
          (relaxOne g goal cur gcur
            (relaxOne g goal cur gcur st (0, 1)) (1, 0)) (0, -1)) (-1, 0) :=
  rfl

lemma expand_noop (g : WarehouseGrid) (start goal cur : Pos) (gcur : Nat)
    (st : AState) (hcur : st.gScore cur = some gcur)
    (hsc : SClause g start st cur dirs) :
    expand g goal cur gcur st = st := by
  rw [expand_eq,
    relaxOne_noop g start goal cur gcur st (0, 1) (by decide) hcur hsc,
    relaxOne_noop g start goal cur gcur st (1, 0) (by decide) hcur hsc,
    relaxOne_noop g start goal cur gcur st (0, -1) (by decide) hcur hsc,
    relaxOne_noop g start goal cur gcur st (-1, 0) (by decide) hcur hsc]

lemma expand_settle (g : WarehouseGrid) (start goal cur : Pos) (gcur : Nat)
    (settled : Finset Pos) (st : AState)
    (hcur_g : st.gScore cur = some gcur)
    (hcur_dist : IsDist g start cur gcur)
    (hb : ABase g start goal st)
    (hS : ∀ u ∈ settled, SClause g start st u dirs)
    (hD : DClause goal start (insert cur settled) st) :
    ABase g start goal (expand g goal cur gcur st) ∧
    (∀ u ∈ insert cur settled, SClause g start (expand g goal cur gcur st) u dirs) ∧
    DClause goal start (insert cur settled) (expand g goal cur gcur st) ∧
    (expand g goal cur gcur st).openSet.length ≤ st.openSet.length + 4 := by
  have hpart0 : SClause g start st cur [] :=
    ⟨gcur, hcur_g, hcur_dist, fun d hd => absurd hd (List.not_mem_nil d)⟩
  obtain ⟨hb1, hS1, hD1, hp1, hg1, hl1⟩ :=
    relaxOne_step g start goal cur gcur settled [] (0, 1) st (by decide)
      hcur_g hcur_dist hb hS hD hpart0
  obtain ⟨hb2, hS2, hD2, hp2, hg2, hl2⟩ :=
    relaxOne_step g start goal cur gcur settled [(0, 1)] (1, 0) _ (by decide)
      hg1 hcur_dist hb1 hS1 hD1 hp1
  obtain ⟨hb3, hS3, hD3, hp3, hg3, hl3⟩ :=
    relaxOne_step g start goal cur gcur settled [(0, 1), (1, 0)] (0, -1) _
      (by decide) hg2 hcur_dist hb2 hS2 hD2 hp2
  obtain ⟨hb4, hS4, hD4, hp4, hg4, hl4⟩ :=
    relaxOne_step g start goal cur gcur settled [(0, 1), (1, 0), (0, -1)]
      (-1, 0) _ (by decide) hg3 hcur_dist hb3 hS3 hD3 hp3
  rw [expand_eq]
  refine ⟨hb4, ?_, hD4, ?_⟩
  · intro u hu
    rcases Finset.mem_insert.mp hu with rfl | hu
    · exact hp4
    · exact hS4 u hu
  · omega

lemma empty_open_all_settled (g : WarehouseGrid) (start goal : Pos)
    (settled : Finset Pos) (st : AState)
    ( _hb : ABase g start goal st)
    (hS : ∀ u ∈ settled, SClause g start st u dirs)
    (hD : DClause goal start settled st)
    (hopen : st.openSet = []) :
    ∀ (l : List Pos) (u v : Pos), u ∈ settled → walkList g u l v = true →
      v ∈ settled := by
  have hindom : ∀ (p : Pos) (gp : Nat), st.gScore p = some gp → p ∈ settled := by
    intro p gp hgp
    by_contra hns
    rcases hD p gp hgp hns with hmem | ⟨-, hmem⟩ <;>
      · rw [hopen] at hmem
        exact absurd hmem (List.not_mem_nil _)
  intro l
  induction l with
  | nil =>
    intro u v hu hw
    rw [walkList] at hw
    obtain rfl := beq_iff_eq.mp hw
    exact hu
  | cons p ps ih =>
    intro u v hu hw
    rw [walkList] at hw
    simp only [Bool.and_eq_true] at hw
    obtain ⟨⟨hadj, hwp⟩, hrest⟩ := hw
    obtain ⟨gu, hgu, hgud, hnbrs⟩ := hS u hu
    obtain ⟨d, hd, hpd⟩ := adjB_to_dir u p hadj
    obtain ⟨gv, hgv, -⟩ := hnbrs d hd (by rw [← hpd]; exact hwp)
    rw [← hpd] at hgv
    exact ih p v (hindom p gv hgv) hrest

lemma astarLoop_spec (g : WarehouseGrid) (start goal : Pos) :
    ∀ (fuel : Nat) (settled : Finset Pos) (st : AState),
      AInv g start goal settled st →
      settled ⊆ insert start (walkCells g) →
      goal ∉ settled →
      phi g st settled < fuel →
      ∃ r, astarLoop g goal fuel st = some r ∧
        ((Reachable g start goal →
          ∃ l, r = l.map moveStep ∧ walkList g start l goal = true ∧
            ∀ l2, walkList g start l2 goal = true → l.length ≤ l2.length) ∧
         (¬Reachable g start goal → r = [fallbackStep goal])) := by
  intro fuel
  induction fuel with
  | zero =>
    intro settled st _ _ _ hphi
    omega
  | succ F ih =>
    intro settled st hinv hsub hgns hphi
    obtain ⟨hb, hS, hD⟩ := hinv
    rw [astarLoop]
    rcases hpop : popMin st.openSet with _ | ⟨⟨f, cur⟩, rest⟩
    · have hopen : st.openSet = [] := (popMin_none _).mp hpop
      refine ⟨[fallbackStep goal], rfl, ?_, fun _ => rfl⟩
      intro hreach
      exfalso
      have hstart_settled : start ∈ settled := by
        by_contra hns
        rcases hD start 0 hb.1 hns with hmem | ⟨-, hmem⟩ <;>
          · rw [hopen] at hmem
            exact absurd hmem (List.not_mem_nil _)
      obtain ⟨l, hl⟩ := hreach
      exact hgns (empty_open_all_settled g start goal settled st hb hS hD
        hopen l start goal hstart_settled hl)
    · dsimp only
      obtain ⟨hmem, hrestEq, hmin⟩ := popMin_spec _ _ _ hpop
      obtain ⟨gcur0, hgcur0, -⟩ := hb.2.2.2.2.2 f cur hmem
      by_cases hcur : cur = goal
      · rw [if_pos hcur]
        subst hcur
        obtain ⟨gc, hgc, hdist⟩ :=
          pop_exact g start cur settled st hb hS hD f cur rest hpop hgns
        have harea : gc ≤ g.rows * g.cols :=
          isDist_le_area g start cur gc hdist
        obtain ⟨hwalk, hlen⟩ := reconstruct_spec g start cur st hb gc cur
          (g.rows * g.cols + 2) hgc (by omega)
        refine ⟨_, rfl, ?_, ?_⟩
        · intro hreach
          refine ⟨reconstruct st.cameFrom (g.rows * g.cols + 2) cur, rfl,
            hwalk, ?_⟩
          intro l2 hl2
          have := hdist.2 l2 hl2
          omega
        · intro hnreach
          exact absurd (abase_reachable g start cur st hb cur gc hgc) hnreach
      · rw [if_neg hcur]
        rcases hg : st.gScore cur with _ | gcur
        · rw [hg] at hgcur0
          exact Option.noConfusion hgcur0
        dsimp only
        have hopen_pos : 1 ≤ st.openSet.length := by
          rcases hlst : st.openSet with _ | ⟨x, xs⟩
          · rw [hlst] at hmem
            exact absurd hmem (List.not_mem_nil _)
          · simp [hlst]
        have hrest_len : rest.length = st.openSet.length - 1 := by
          rw [hrestEq]
          exact List.length_erase_of_mem hmem
        have hb2 : ABase g start goal { st with openSet := rest } := by
          obtain ⟨ha1, ha2, ha3, hr, hdom, he⟩ := hb
          refine ⟨ha1, ha2, ha3, hr, hdom, ?_⟩
          intro f2 p hmem2
          refine he f2 p ?_
          rw [hrestEq] at hmem2
          exact List.mem_of_mem_erase hmem2
        have hS2 : ∀ u ∈ settled, SClause g start { st with openSet := rest } u dirs :=
          hS
        by_cases hcs : cur ∈ settled
        · have hD2 : DClause goal start settled { st with openSet := rest } := by
            intro p gp hgp hns
            rcases hD p gp hgp hns with hmem2 | ⟨hps, hmem2⟩
            · left
              rw [hrestEq]
              refine List.mem_erase_of_ne ?_ |>.mpr hmem2
              intro hEq
              rw [Prod.mk.injEq] at hEq
              exact hns (hEq.2 ▸ hcs)
            · right
              refine ⟨hps, ?_⟩
              rw [hrestEq]
              refine List.mem_erase_of_ne ?_ |>.mpr hmem2
              intro hEq
              rw [Prod.mk.injEq] at hEq
              exact hns (hEq.2 ▸ hcs)
          have hsc : SClause g start { st with openSet := rest } cur dirs :=
            hS cur hcs
          have hexp : expand g goal cur gcur { st with openSet := rest } =
              { st with openSet := rest } :=
            expand_noop g start goal cur gcur _ hg hsc
          rw [hexp]
          have hphi2 : phi g { st with openSet := rest } settled < F := by
            rw [phi] at hphi ⊢
            simp only at hphi ⊢
            omega
          exact ih settled { st with openSet := rest } ⟨hb2, hS2, hD2⟩ hsub
            hgns hphi2
        · obtain ⟨gc, hgc, hdist⟩ :=
            pop_exact g start goal settled st hb hS hD f cur rest hpop hcs
          rw [hg] at hgc
          obtain rfl := Option.some.inj hgc
          have hD2 : DClause goal start (insert cur settled)
              { st with openSet := rest } := by
            intro p gp hgp hns
            have hpns : p ∉ settled := fun h => hns (Finset.mem_insert_of_mem h)
            have hpcur : p ≠ cur := fun h => hns (h ▸ Finset.mem_insert_self cur settled)
            rcases hD p gp hgp hpns with hmem2 | ⟨hps, hmem2⟩
            · left
              rw [hrestEq]
              refine List.mem_erase_of_ne ?_ |>.mpr hmem2
              intro hEq
              rw [Prod.mk.injEq] at hEq
              exact hpcur hEq.2
            · right
              refine ⟨hps, ?_⟩
              rw [hrestEq]
              refine List.mem_erase_of_ne ?_ |>.mpr hmem2
              intro hEq
              rw [Prod.mk.injEq] at hEq
              exact hpcur hEq.2
          obtain ⟨hb3, hS3, hD3, hlen3⟩ :=
            expand_settle g start goal cur gcur settled
              { st with openSet := rest } hg hdist hb2 hS2 hD2
          have hcur_in : cur ∈ insert start (walkCells g) := by
            rcases hb.2.2.2.2.1 cur (by rw [hg]; rfl) with hcs2 | hcw
            · rw [hcs2]
              exact Finset.mem_insert_self _ _
            · exact Finset.mem_insert_of_mem (mem_walkCells g cur hcw)
          have hsub3 : insert cur settled ⊆ insert start (walkCells g) :=
            Finset.insert_subset hcur_in hsub
          have hgns3 : goal ∉ insert cur settled := by
            intro h
            rcases Finset.mem_insert.mp h with h1 | h1
            · exact hcur h1.symm
            · exact hgns h1
          have hcard3 : (insert cur settled).card = settled.card + 1 :=
            Finset.card_insert_of_not_mem hcs
          have hcard : settled.card ≤ g.rows * g.cols := by
            have h1 := Finset.card_le_card hsub3
            have h2 := Finset.card_insert_le start (walkCells g)
            have h3 := walkCells_card g
            omega
          have hphi3 : phi g (expand g goal cur gcur { st with openSet := rest })
              (insert cur settled) < F := by
            rw [phi] at hphi ⊢
            simp only at hlen3 ⊢
            rw [hcard3]
            omega
          exact ih (insert cur settled) _ ⟨hb3, hS3, hD3⟩ hsub3 hgns3 hphi3

lemma walkList_end_mem (g : WarehouseGrid) :
    ∀ (l : List Pos) (s t : Pos), walkList g s l t = true → s = t ∨ t ∈ l := by
  intro l
  induction l with
  | nil =>
    intro s t h
    exact Or.inl (beq_iff_eq.mp h)
  | cons p ps ih =>
    intro s t h
    rw [walkList] at h
    simp only [Bool.and_eq_true] at h
    obtain ⟨⟨-, -⟩, hrest⟩ := h
    rcases ih p t hrest with h1 | h1
    · exact Or.inr (h1 ▸ List.mem_cons_self p ps)
    · exact Or.inr (List.mem_cons_of_mem p h1)

lemma reachable_target_walkable (g : WarehouseGrid) (s t : Pos)
    (hne : s ≠ t) (hr : Reachable g s t) : walkB g t = true := by
  obtain ⟨l, hl⟩ := hr
  rcases walkList_end_mem g l s t hl with h1 | h1
  · exact absurd h1 hne
  · exact walkList_mem_walkable g l s t hl t h1

lemma initState_inv (g : WarehouseGrid) (start goal : Pos) :
    AInv g start goal ∅ (initState start) := by
  refine ⟨⟨?_, rfl, ?_, ?_, ?_, ?_⟩, ?_, ?_⟩
  · simp [initState]
  · intro p hp hsome
    exfalso
    simp [initState, hp] at hsome
  · intro p u hcf
    exact Option.noConfusion hcf
  · intro p hsome
    by_cases hp : p = start
    · exact Or.inl hp
    · exfalso
      simp [initState, hp] at hsome
  · intro f p hmemo
    simp only [initState, List.mem_singleton] at hmemo
    rw [Prod.mk.injEq] at hmemo
    obtain ⟨hf, hp⟩ := hmemo
    subst hf
    subst hp
    refine ⟨0, ?_, Or.inl ⟨rfl, rfl⟩⟩
    simp [initState]
  · intro u hu
    exact absurd hu (Finset.not_mem_empty u)
  · intro p gp hgp hns
    by_cases hp : p = start
    · subst hp
      right
      refine ⟨rfl, ?_⟩
      simp [initState]
    · exfalso
      simp [initState, hp] at hgp

lemma initState_phi (g : WarehouseGrid) (start : Pos) :
    phi g (initState start) ∅ < 5 * (g.rows * g.cols) + 8 := by
  rw [phi]
  simp only [initState, List.length_singleton, Finset.card_empty, Nat.sub_zero]
  omega

/-- C1: A* optimality.  For every grid and every `(start, goal)` with `goal`
reachable from `start` through 4-connected walkable cells, `_find_path`
returns the `Move` steps of a walk from the cell after `start` up to and
including `goal`, and the walk's length is the true shortest-path distance
(`IsDist`: attained by the walk itself and minimal among all walks). -/
theorem C1_astar_optimal (g : WarehouseGrid) (start goal : Pos)
    (hreach : Reachable g start goal) :
    ∃ l : List Pos, find_path g start goal = l.map moveStep ∧
      walkList g start l goal = true ∧ IsDist g start goal l.length := by
  obtain ⟨r, hr, hrc, -⟩ := astarLoop_spec g start goal
    (5 * (g.rows * g.cols) + 8) ∅ (initState start)
    (initState_inv g start goal) (Finset.empty_subset _)
    (Finset.not_mem_empty _) (initState_phi g start)
  obtain ⟨l, hl, hwalk, hmin⟩ := hrc hreach
  refine ⟨l, ?_, hwalk, ⟨l, hwalk, rfl⟩, hmin⟩
  rw [find_path, hr]
  dsimp only
  exact hl

theorem C1_astar_optimal_witness :
    ∃ l : List Pos, find_path gridW1 (0, 0) (1, 1) = l.map moveStep ∧
      walkList gridW1 (0, 0) l (1, 1) = true ∧
      IsDist gridW1 (0, 0) (1, 1) l.length :=
  C1_astar_optimal gridW1 (0, 0) (1, 1) ⟨[(0, 1), (1, 1)], by decide⟩

/-- C6: A* fallback.  For every grid and every `(start, goal)` with `goal`
distinct from `start` and not reachable through walkable cells, `_find_path`
returns exactly one step, a `Move` step at the goal position. -/
theorem C6_astar_fallback (g : WarehouseGrid) (start goal : Pos)
    ( _hne : goal ≠ start) (hnreach : ¬ Reachable g start goal) :
    find_path g start goal = [fallbackStep goal] := by
  obtain ⟨r, hr, -, hfb⟩ := astarLoop_spec g start goal
    (5 * (g.rows * g.cols) + 8) ∅ (initState start)
    (initState_inv g start goal) (Finset.empty_subset _)
    (Finset.not_mem_empty _) (initState_phi g start)
  rw [find_path, hr]
  dsimp only
  exact hfb hnreach

theorem C6_astar_fallback_witness :
    find_path gridC6 (0, 0) (1, 0) = [fallbackStep (1, 0)] :=
  C6_astar_fallback gridC6 (0, 0) (1, 0) (by decide)
    (fun hr => absurd
      (reachable_target_walkable gridC6 (0, 0) (1, 0) (by decide) hr)
      (by decide))
